import Mathlib

/-!
# psi-meter: a shallow embedding of `main.go`

The program polls `/proc/pressure/{cpu,io,memory}`, turns the difference of two
consecutive `total=` counters into a percentage of the elapsed time, prints a
bar meter for it and keeps a bounded history of the rates.

Conventions of the embedding

* `uint64` and `int64` values are integers, reduced explicitly with `wrapU64`
  and `wrapI64` wherever the Go operation wraps.
* `float64` is the type `F64`: NaN, the two infinities, and the finite values
  as rationals.  Every arithmetic operation rounds its exact result with
  `roundF64` (IEEE 754 binary64, round to nearest, ties to even, with gradual
  underflow and overflow to infinity).  The sign of a zero is not represented:
  the program never divides by a negative zero and never inspects the sign of
  a zero, so both zeros behave alike in every modelled operation.
* `time.Time` is its monotonic clock reading in nanoseconds.
* Strings are lists of characters.  The separators searched for (`total=` and
  the newline) are ASCII, so on UTF-8 text the character-wise search finds what
  the byte-wise search of Go finds.
* The goroutine workers of `run` are replaced by the values they deliver: one
  `readPSI` result per path, collected in the order of `paths`.
* Writing to the terminal is not modelled: of `printMeter` the embedding keeps
  the bar (the glyph lookups, which can panic), and `clear` and `drawCharts`
  are left out.
* The library functions `strings.Cut`, `strconv.ParseInt`, `strconv.ParseUint`
  and `Time.Sub` are modelled after their Go implementation.
-/

namespace PsiMeter

/-! ## Machine integers -/

/-- Result of an arithmetic operation on `uint64`: the value modulo `2^64`. -/
def wrapU64 (n : ℤ) : ℤ := n % 2 ^ 64

/-- Result of an arithmetic operation on `int64`, and of the conversion of a
`uint64` to `int64`: the representative of `n` modulo `2^64` in `[-2^63, 2^63)`. -/
def wrapI64 (n : ℤ) : ℤ := (n + 2 ^ 63) % 2 ^ 64 - 2 ^ 63

/-- Smallest `int64`. -/
def minInt64 : ℤ := -(2 ^ 63)

/-- Largest `int64`. -/
def maxInt64 : ℤ := 2 ^ 63 - 1

/-! ## float64 -/

/-- A `float64` value. -/
inductive F64 where
  | nan
  | posInf
  | negInf
  | fin (q : ℚ)
  deriving DecidableEq

/-- Binary logarithm by repeated halving, at most `fuel` times. -/
def log2Fuel : Nat → Nat → Nat
  | 0, _ => 0
  | fuel + 1, n => if n < 2 then 0 else log2Fuel fuel (n / 2) + 1

/-- Floor of the binary logarithm of a natural number (`0` at `0`). -/
def nlog2 (n : Nat) : Nat := log2Fuel n n

/-- Floor of the binary logarithm of a positive rational. -/
def ilog2 (a : ℚ) : ℤ :=
  let e0 : ℤ := (nlog2 a.num.natAbs : ℤ) - (nlog2 a.den : ℤ)
  if (2 : ℚ) ^ e0 ≤ a then e0 else e0 - 1

/-- Nearest integer, ties to the even one. -/
def roundHalfEven (x : ℚ) : ℤ :=
  let f := ⌊x⌋
  let d := x - f
  if d < 1 / 2 then f else if 1 / 2 < d then f + 1 else if f % 2 = 0 then f else f + 1

/-- Rounding of an exact result to binary64: 53 significant bits, exponent of
the unit in the last place at least `-1074`, infinity from `2^1024` on. -/
def roundF64 (q : ℚ) : F64 :=
  if q = 0 then F64.fin 0
  else
    let a := |q|
    let e := max (ilog2 a) (-1022)
    let ulp : ℚ := 2 ^ (e - 52)
    let v : ℚ := roundHalfEven (a / ulp) * ulp
    if 2 ^ 1024 ≤ v then (if q < 0 then F64.negInf else F64.posInf)
    else F64.fin (if q < 0 then -v else v)

namespace F64

/-- Conversion `float64(i)` of an integer. -/
def ofInt (i : ℤ) : F64 := roundF64 i

/-- Division `x / y`. -/
def div : F64 → F64 → F64
  | nan, _ => nan
  | _, nan => nan
  | fin a, fin b =>
    if b = 0 then (if a = 0 then nan else if 0 < a then posInf else negInf)
    else roundF64 (a / b)
  | fin _, posInf => fin 0
  | fin _, negInf => fin 0
  | posInf, fin b => if b < 0 then negInf else posInf
  | negInf, fin b => if b < 0 then posInf else negInf
  | posInf, posInf => nan
  | posInf, negInf => nan
  | negInf, posInf => nan
  | negInf, negInf => nan

/-- Multiplication `x * y`. -/
def mul : F64 → F64 → F64
  | nan, _ => nan
  | _, nan => nan
  | fin a, fin b => roundF64 (a * b)
  | fin a, posInf => if a = 0 then nan else if 0 < a then posInf else negInf
  | fin a, negInf => if a = 0 then nan else if 0 < a then negInf else posInf
  | posInf, fin b => if b = 0 then nan else if 0 < b then posInf else negInf
  | negInf, fin b => if b = 0 then nan else if 0 < b then negInf else posInf
  | posInf, posInf => posInf
  | negInf, negInf => posInf
  | posInf, negInf => negInf
  | negInf, posInf => negInf

/-- Comparison `x < y`; false as soon as one side is NaN. -/
def lt : F64 → F64 → Bool
  | fin a, fin b => decide (a < b)
  | fin _, posInf => true
  | negInf, fin _ => true
  | negInf, posInf => true
  | _, _ => false

/-- Comparison `x != 0`; true for NaN. -/
def neZero : F64 → Bool
  | fin a => decide (a ≠ 0)
  | _ => true

/-- Conversion `int(x)`: truncation toward zero.  When the truncated value is
not an `int64` (or `x` is NaN or infinite) Go leaves the result to the
implementation; `cvt x` stands for that result. -/
def toInt (cvt : F64 → ℤ) : F64 → ℤ
  | fin a =>
    let t : ℤ := if 0 ≤ a then ⌊a⌋ else ⌈a⌉
    if minInt64 ≤ t ∧ t ≤ maxInt64 then t else wrapI64 (cvt (fin a))
  | x => wrapI64 (cvt x)

end F64

/-- The function `min` of `main.go`. -/
def min (a b : F64) : F64 := if F64.lt a b then a else b

/-! ## The rate of one resource (the loop body of `run`) -/

/-- Number of nanoseconds in `time.Microsecond`. -/
def Microsecond : ℤ := 1000

/-- Method `Time.Sub` on monotonic readings: the difference, saturated to the
range of `time.Duration`. -/
def timeSub (t u : ℤ) : ℤ := max minInt64 (Min.min maxInt64 (t - u))

/-- `acc := time.Duration(cur.SomeTotal - prev.SomeTotal) * time.Microsecond`:
the subtraction is done on `uint64`, the conversion reinterprets the result as
an `int64`, and the product is an `int64` product. -/
def accOf (cur prev : ℤ) : ℤ := wrapI64 (wrapI64 (wrapU64 (cur - prev)) * Microsecond)

/-- `pct := float64(acc) / float64(dur) * 100`. -/
def pctOf (dur cur prev : ℤ) : F64 :=
  F64.mul (F64.div (F64.ofInt (accOf cur prev)) (F64.ofInt dur)) (F64.ofInt 100)

/-! ## Errors and panics -/

/-- The ways an iteration of `run` can end abnormally: the three errors that
`readPSI` returns, and the two run-time panics of the modelled code. -/
inductive Error where
  | readFile (path : String)
  | parseSyntax (s : List Char)
  | parseRange (s : List Char)
  | indexOutOfRange (index : ℤ) (length : Nat)
  | nilDereference
  deriving DecidableEq

deriving instance DecidableEq for Except

/-! ## printMeter -/

/-- The glyph table `leftBarChars`. -/
def leftBarChars : List String :=
  [" ", "▏", "▎", "▍", "▌", "▋", "▊", "▉", "█"]

/-- What `termWidth` observes: whether standard output is a terminal, and the
outcome of the `TIOCGWINSZ` ioctl of `getTerminalSize` (`none` when it fails,
otherwise the `uint16` column count). -/
structure Terminal where
  isTerminal : Bool
  cols : Option Nat

/-- The function `termWidth`. -/
def termWidth (tm : Terminal) : ℤ :=
  if tm.isTerminal then
    match tm.cols with
    | none => 80
    | some cols => ((cols % 65536 : Nat) : ℤ) - 1
  else 80

/-- Indexing `leftBarChars[i]`, which panics outside `0 ≤ i < 9`. -/
def glyphAt (i : ℤ) : Except Error String :=
  if 0 ≤ i then
    match leftBarChars.get? i.toNat with
    | some c => .ok c
    | none => .error (.indexOutOfRange i leftBarChars.length)
  else .error (.indexOutOfRange i leftBarChars.length)

/-- The loop `for i := 0; i < width; i++` of `printMeter`, with `n` iterations
left: the glyphs printed, or the panic of the first bad index. -/
def barLoop (cvt : F64 → ℤ) : Nat → ℤ → Except Error (List String)
  | 0, _ => .ok []
  | n + 1, remainingFilledWidthEighths =>
    let cWidthEighths :=
      F64.toInt cvt (min (F64.ofInt remainingFilledWidthEighths) (F64.fin 8))
    match glyphAt cWidthEighths with
    | .error e => .error e
    | .ok c =>
      match barLoop cvt n (wrapI64 (remainingFilledWidthEighths - cWidthEighths)) with
      | .error e => .error e
      | .ok cs => .ok (c :: cs)

/-- The fraction `frac` that `printMeter` draws. -/
def fracOf (num denom : F64) : F64 :=
  if F64.neZero denom then F64.div num denom else F64.fin 0

/-- The initial value of `remainingFilledWidthEighths` in `printMeter`. -/
def initialFill (cvt : F64 → ℤ) (width : ℤ) (frac : F64) : ℤ :=
  let widthInEighths := wrapI64 (width * 8)
  F64.toInt cvt (min (F64.mul (F64.ofInt widthInEighths) frac) (F64.ofInt widthInEighths))

/-- The function `printMeter`, reduced to the bar it draws: the glyphs of the
cells and whether the trailing `!` is printed.  The text line above the bar is
formatting only and is left out. -/
def printMeter (cvt : F64 → ℤ) (tm : Terminal) (num denom : F64) :
    Except Error (List String × Bool) :=
  let frac := fracOf num denom
  let width := termWidth tm
  match barLoop cvt width.toNat (initialFill cvt width frac) with
  | .error e => .error e
  | .ok cells => .ok (cells, F64.lt (F64.fin 1) frac)

/-! ## readPSI -/

/-- The type `PSI`; `SomeTotal` is a `uint64`. -/
structure PSI where
  SomeTotal : Nat
  deriving DecidableEq

/-- Search of the first occurrence of `sep`: the text before it and the text
after it. -/
def cutAt (sep : List Char) : List Char → Option (List Char × List Char)
  | [] => if sep = [] then some ([], []) else none
  | c :: rest =>
    if sep.isPrefixOf (c :: rest) then some ([], (c :: rest).drop sep.length)
    else
      match cutAt sep rest with
      | some (before, after) => some (c :: before, after)
      | none => none

/-- Library function `strings.Cut`. -/
def Cut (s sep : List Char) : List Char × List Char × Bool :=
  match cutAt sep s with
  | some (before, after) => (before, after, true)
  | none => (s, [], false)

/-- The two errors of package `strconv`. -/
inductive NumError where
  | ErrSyntax
  | ErrRange
  deriving DecidableEq

/-- The digit loop of `strconv.ParseUint(s, 10, 64)`, with `n` the value
accumulated so far. -/
def parseUintLoop : List Char → Nat → Nat × Option NumError
  | [], n => (n, none)
  | c :: cs, n =>
    let b := c.toNat
    if 48 ≤ b ∧ b ≤ 57 then
      let d := b - 48
      if n ≥ (2 ^ 64 - 1) / 10 + 1 then (2 ^ 64 - 1, some .ErrRange)
      else
        let n1 := n * 10 + d
        if n1 > 2 ^ 64 - 1 then (2 ^ 64 - 1, some .ErrRange)
        else parseUintLoop cs n1
    else (0, some .ErrSyntax)

/-- Library function `strconv.ParseUint(s, 10, 64)`. -/
def ParseUint (s : List Char) : Nat × Option NumError :=
  if s = [] then (0, some .ErrSyntax) else parseUintLoop s 0

/-- Library function `strconv.ParseInt(s, 10, 64)`: an optional sign, then
`ParseUint`, then the range check against `2^63`. -/
def ParseInt (s : List Char) : ℤ × Option NumError :=
  match s with
  | [] => (0, some .ErrSyntax)
  | c :: rest =>
    let neg := decide (c = '-')
    let digits := if c = '+' ∨ c = '-' then rest else c :: rest
    match ParseUint digits with
    | (_, some .ErrSyntax) => (0, some .ErrSyntax)
    | (un, _) =>
      let cutoff : Nat := 2 ^ 63
      if !neg ∧ un ≥ cutoff then ((cutoff : ℤ) - 1, some .ErrRange)
      else if neg ∧ un > cutoff then (-(cutoff : ℤ), some .ErrRange)
      else (if neg then -(un : ℤ) else (un : ℤ), none)

/-- The function `readPSI`; `files path` is what `os.ReadFile(path)` returns,
`none` standing for an error. -/
def readPSI (files : String → Option (List Char)) (path : String) : Except Error PSI :=
  match files path with
  | none => .error (.readFile path)
  | some b =>
    let s := (Cut b "total=".toList).2.1
    let s := (Cut s ['\n']).1
    match ParseInt s with
    | (_, some .ErrSyntax) => .error (.parseSyntax s)
    | (_, some .ErrRange) => .error (.parseRange s)
    | (someTotal, none) => .ok { SomeTotal := (wrapU64 someTotal).toNat }

/-- The number denoted by a string of decimal digits. -/
def digitsValue (ds : List Char) : Nat :=
  ds.foldl (fun n c => n * 10 + (c.toNat - 48)) 0

/-! ## run -/

/-- The paths polled by `run`, in the order of the slice `paths`. -/
def paths : List String :=
  ["/proc/pressure/cpu", "/proc/pressure/io", "/proc/pressure/memory"]

/-- The type `measurement`: the time of a snapshot and its map from path to
`*PSI` (`none` for a key that is absent, whose lookup yields a nil pointer). -/
structure measurement where
  t : ℤ
  psis : String → Option PSI

/-- The type `TimePoint` of the chart library: a time and a value. -/
structure TimePoint where
  Time : ℤ
  Value : F64
  deriving DecidableEq

/-- The constant `limit` of `run`. -/
def limit : Nat := 1024

/-- The two statements that update one history:
`h = append(h, tp); if len(h) > limit then h = h[1:]`. -/
def appendTrim (h : List TimePoint) (tp : TimePoint) : List TimePoint :=
  let h1 := h ++ [tp]
  if h1.length > limit then h1.drop 1 else h1

/-- Assignment `m[k] = v` on a map seen as a function. -/
def setKey {α : Type} (m : String → α) (k : String) (v : α) : String → α :=
  fun x => if x = k then v else m x

/-- The second loop of `getPSIs`: the responses are taken in the order of the
paths, the first error is returned, the values are stored in the map `m`. -/
def collect (res : String → Except Error PSI) :
    List String → (String → Option PSI) → Except Error (String → Option PSI)
  | [], m => .ok m
  | p :: ps, m =>
    match res p with
    | .error e => .error e
    | .ok psi => collect res ps (setKey m p (some psi))

/-- The closure `getPSIs`: every worker answers with the result of `readPSI` on
its path. -/
def getPSIs (files : String → Option (List Char)) : Except Error (String → Option PSI) :=
  collect (readPSI files) paths (fun _ => none)

/-- What one iteration of the loop of `run` receives from outside: the clock
reading `time.Now()`, the content of the files, what `termWidth` observes at
the `printMeter` call of each path, and the implementation-defined results of
the float to integer conversion. -/
structure RoundInput where
  now : ℤ
  files : String → Option (List Char)
  term : String → Terminal
  cvt : F64 → ℤ

/-- The variables that live across the iterations of `run`. -/
structure State where
  last : Option measurement
  history : String → List TimePoint

/-- The state in which `run` enters its loop. -/
def State.init : State := { last := none, history := fun _ => [] }

/-- A call `printMeter(label, num, denom)`. -/
structure MeterCall where
  label : String
  num : F64
  denom : F64
  deriving DecidableEq

/-- Where a piece of `run` stands when it stops: the history, the calls of
`printMeter` made so far, and the error or panic that stopped it, if any. -/
structure Outcome where
  history : String → List TimePoint
  calls : List MeterCall
  err : Option Error

/-- The loop `for _, p := range paths` of a warm round. -/
def meterLoop (r : RoundInput) (last : measurement) (psis : String → Option PSI) :
    List String → (String → List TimePoint) → List MeterCall → Outcome
  | [], history, calls => { history := history, calls := calls, err := none }
  | p :: ps, history, calls =>
    let dur := timeSub r.now last.t
    match psis p, last.psis p with
    | some cur, some prev =>
      let pct := pctOf dur cur.SomeTotal prev.SomeTotal
      let calls1 := calls ++ [{ label := p, num := pct, denom := F64.fin 100 }]
      match printMeter r.cvt (r.term p) pct (F64.fin 100) with
      | .error e => { history := history, calls := calls1, err := some e }
      | .ok _ =>
        meterLoop r last psis ps
          (setKey history p (appendTrim (history p) { Time := r.now, Value := pct })) calls1
    | _, _ => { history := history, calls := calls, err := some .nilDereference }

/-- The result of one iteration of the loop of `run`, up to the assignment of
`last`: the state when that point is reached (or when `run` returns or panics
before it), the `printMeter` calls made, and the error returned by `getPSIs`
or the panic raised by a `printMeter` call, if any.  The call of `drawCharts`
that closes an iteration reads the history and writes to the terminal; it
changes neither `last` nor `history` and is not part of the step, so that
`err = none` says that the reads and the `printMeter` calls of the round went
through, and says nothing of what the chart library does. -/
structure StepResult where
  state : State
  calls : List MeterCall
  err : Option Error

/-- One iteration of the loop of `run`, from `t := time.Now()` to the
assignment `last = &measurement{t, psis}`. -/
def roundStep (s : State) (r : RoundInput) : StepResult :=
  match getPSIs r.files with
  | .error e => { state := s, calls := [], err := some e }
  | .ok psis =>
    match s.last with
    | none =>
      { state := { last := some { t := r.now, psis := psis }, history := s.history },
        calls := [], err := none }
    | some last =>
      let o := meterLoop r last psis paths s.history []
      match o.err with
      | some e =>
        { state := { last := s.last, history := o.history }, calls := o.calls, err := some e }
      | none =>
        { state := { last := some { t := r.now, psis := psis }, history := o.history },
          calls := o.calls, err := none }

/-- The loop of `run` over the rounds `rs`: it stops at the first round whose
step ends with an error or a panic (`run` returns the error and `main` exits),
and otherwise goes on.  The result is the state reached and the error, if any.
A panic of the chart library inside `drawCharts`, which the embedding leaves
out, would end the run of the program as well. -/
def runRounds : State → List RoundInput → State × Option Error
  | s, [] => (s, none)
  | s, r :: rs =>
    let o := roundStep s r
    match o.err with
    | some e => (o.state, some e)
    | none => runRounds o.state rs

/-! ## Relative error -/

/-- The value `x` approximates `y` with relative error at most `ε`. -/
def Near (ε x y : ℚ) : Prop := |x - y| ≤ ε * |y|

/-! ## Concrete inputs used by the evaluation theorems -/

namespace Scenario

/-- Standard output is a pipe: `termWidth` answers 80. -/
def pipe : Terminal := { isTerminal := false, cols := none }

/-- The float to integer conversion of amd64, which yields the smallest `int64`
for NaN and for every value outside the range of `int64`. -/
def amd64 : F64 → ℤ := fun _ => minInt64

/-- A pressure file whose first line carries the field `total=` followed by
the text `total`. -/
def psiFile (total : String) : List Char :=
  "some avg10=0.00 avg60=0.00 avg300=0.00 total=".toList ++ total.toList ++
    "\nfull avg10=0.00 avg60=0.00 avg300=0.00 total=0\n".toList

/-- The three pressure files. -/
def files (cpu io memory : Option (List Char)) : String → Option (List Char) :=
  fun p =>
    if p = "/proc/pressure/cpu" then cpu
    else if p = "/proc/pressure/io" then io
    else if p = "/proc/pressure/memory" then memory
    else none

/-- A round at clock reading `t` in which the three files are readable and
carry the given texts in their first `total=` field. -/
def round (t : ℤ) (cpu io memory : String) : RoundInput :=
  { now := t, files := files (some (psiFile cpu)) (some (psiFile io)) (some (psiFile memory)),
    term := fun _ => pipe, cvt := amd64 }

/-- A round at clock reading `t` in which the file of `io` cannot be read. -/
def roundIoFails (t : ℤ) (cpu memory : String) : RoundInput :=
  { now := t, files := files (some (psiFile cpu)) none (some (psiFile memory)),
    term := fun _ => pipe, cvt := amd64 }

/-- Rounds 100 ms apart in which the counter of `cpu` reads 1000, 1500, 1500. -/
def r1 : RoundInput := round 0 "1000" "0" "0"

/-- Second round of the scenario. -/
def r2 : RoundInput := round 100000000 "1500" "0" "0"

/-- A round in which the read of `io` fails. -/
def rFail : RoundInput := roundIoFails 300000000 "1700" "0"

/-- A round with readable files after the failing one. -/
def r4 : RoundInput := round 400000000 "3000" "0" "0"

/-- A round in which the counter of `cpu` has fallen from 1500 to 1000. -/
def rDown : RoundInput := round 200000000 "1000" "0" "0"

/-- The snapshot that round `r1` stores. -/
def snapshot1 : measurement :=
  { t := 0, psis := fun p => if p = "/proc/pressure/cpu" then some ⟨1000⟩ else some ⟨0⟩ }

/-- A warm state: the snapshot of `r1` and empty histories. -/
def warm : State := { last := some snapshot1, history := fun _ => [] }

/-- A snapshot in which the three counters read 1000. -/
def snapshotAll : measurement := { t := 0, psis := fun _ => some ⟨1000⟩ }

/-- A warm state: the snapshot `snapshotAll` and empty histories. -/
def warmAll : State := { last := some snapshotAll, history := fun _ => [] }

/-- A round 100 ms after `snapshotAll` in which the counter of `cpu` has risen
to 1500, that of `io` has fallen to 0 and that of `memory` still reads 1000. -/
def rIoDown : RoundInput := round 100000000 "1500" "0" "1000"

/-- The 1025 points stamped 0, 1, ..., 1024, all with the value 0. -/
def points : List TimePoint :=
  (List.range 1025).map (fun (i : Nat) => TimePoint.mk (Int.ofNat i) (F64.fin 0))

end Scenario

/-! ## Rounding to binary64 -/

theorem log2Fuel_spec : ∀ (fuel n : Nat), 1 ≤ n → n < 2 ^ fuel →
    2 ^ log2Fuel fuel n ≤ n ∧ n < 2 ^ (log2Fuel fuel n + 1) := by
  intro fuel
  induction fuel with
  | zero => intro n h1 h2; simp at h2; omega
  | succ k ih =>
    intro n h1 h2
    unfold log2Fuel
    by_cases h : n < 2
    · simp only [h, if_true]
      constructor <;> simp <;> omega
    · simp only [h, if_false]
      have h3 : 1 ≤ n / 2 := by omega
      have h4 : n / 2 < 2 ^ k := by
        rw [pow_succ] at h2; omega
      obtain ⟨a, b⟩ := ih (n / 2) h3 h4
      rw [pow_succ, pow_succ]
      rw [pow_succ] at b
      constructor <;> omega

theorem nlog2_spec (n : Nat) (h : 1 ≤ n) : 2 ^ nlog2 n ≤ n ∧ n < 2 ^ (nlog2 n + 1) :=
  log2Fuel_spec n n h (Nat.lt_two_pow n)

theorem ilog2_spec (a : ℚ) (ha : 0 < a) :
    (2 : ℚ) ^ ilog2 a ≤ a ∧ a < (2 : ℚ) ^ (ilog2 a + 1) := by
  have hnum : 0 < a.num := Rat.num_pos.mpr ha
  have hp1 : 1 ≤ a.num.natAbs := by omega
  have hq1 : 1 ≤ a.den := a.den_pos
  obtain ⟨hp_lo, hp_hi⟩ := nlog2_spec _ hp1
  obtain ⟨hq_lo, hq_hi⟩ := nlog2_spec _ hq1
  have hden : (0 : ℚ) < a.den := by exact_mod_cast a.den_pos
  have hnumabs : (a.num.natAbs : ℚ) = a.num := by
    have h0 : (a.num.natAbs : ℤ) = a.num := Int.natAbs_of_nonneg hnum.le
    rw [← Int.cast_natCast, h0]
  have haeq : a = (a.num.natAbs : ℚ) / a.den := by
    rw [hnumabs]; exact (Rat.num_div_den a).symm
  set p := a.num.natAbs with hp
  set q := a.den with hq
  set lp := nlog2 p with hlp
  set lq := nlog2 q with hlq
  have h2 : (0 : ℚ) < 2 := by norm_num
  have hP_lo : (2 : ℚ) ^ (lp : ℤ) ≤ p := by
    rw [zpow_natCast]; exact_mod_cast hp_lo
  have hP_hi : (p : ℚ) < (2 : ℚ) ^ ((lp : ℤ) + 1) := by
    have : (p : ℚ) < (2 : ℚ) ^ (lp + 1) := by exact_mod_cast hp_hi
    rwa [← zpow_natCast, Nat.cast_add, Nat.cast_one] at this
  have hQ_lo : (2 : ℚ) ^ (lq : ℤ) ≤ q := by
    rw [zpow_natCast]; exact_mod_cast hq_lo
  have hQ_hi : (q : ℚ) < (2 : ℚ) ^ ((lq : ℤ) + 1) := by
    have : (q : ℚ) < (2 : ℚ) ^ (lq + 1) := by exact_mod_cast hq_hi
    rwa [← zpow_natCast, Nat.cast_add, Nat.cast_one] at this
  -- bounds on a in terms of e0
  have hlow : (2 : ℚ) ^ ((lp : ℤ) - lq - 1) < a := by
    have e : (2 : ℚ) ^ ((lp : ℤ) - lq - 1) = 2 ^ (lp : ℤ) / 2 ^ ((lq : ℤ) + 1) := by
      rw [← zpow_sub₀ (by norm_num : (2 : ℚ) ≠ 0)]; congr 1; ring
    rw [e, haeq, div_lt_div_iff₀ (zpow_pos h2 _) hden]
    calc (2 : ℚ) ^ (lp : ℤ) * q < 2 ^ (lp : ℤ) * 2 ^ ((lq : ℤ) + 1) :=
          mul_lt_mul_of_pos_left hQ_hi (zpow_pos h2 _)
      _ ≤ p * 2 ^ ((lq : ℤ) + 1) := mul_le_mul_of_nonneg_right hP_lo (zpow_pos h2 _).le
  have hhigh : a < (2 : ℚ) ^ ((lp : ℤ) - lq + 1) := by
    have e : (2 : ℚ) ^ ((lp : ℤ) - lq + 1) = 2 ^ ((lp : ℤ) + 1) / 2 ^ (lq : ℤ) := by
      rw [← zpow_sub₀ (by norm_num : (2 : ℚ) ≠ 0)]; congr 1; ring
    rw [e, haeq, div_lt_div_iff₀ hden (zpow_pos h2 _)]
    calc (p : ℚ) * 2 ^ (lq : ℤ) < 2 ^ ((lp : ℤ) + 1) * 2 ^ (lq : ℤ) :=
          mul_lt_mul_of_pos_right hP_hi (zpow_pos h2 _)
      _ ≤ 2 ^ ((lp : ℤ) + 1) * q := mul_le_mul_of_nonneg_left hQ_lo (zpow_pos h2 _).le
  unfold ilog2
  simp only [← hp, ← hq, ← hlp, ← hlq]
  by_cases hc : (2 : ℚ) ^ ((lp : ℤ) - lq) ≤ a
  · rw [if_pos hc]; exact ⟨hc, hhigh⟩
  · rw [if_neg hc]
    refine ⟨hlow.le, ?_⟩
    have : (lp : ℤ) - lq - 1 + 1 = (lp : ℤ) - lq := by ring
    rw [this]; exact lt_of_not_le hc

theorem roundHalfEven_abs_sub_le (x : ℚ) : |(roundHalfEven x : ℚ) - x| ≤ 1 / 2 := by
  have h1 := Int.floor_le x
  have h2 := Int.lt_floor_add_one x
  unfold roundHalfEven
  simp only []
  rw [abs_le]
  split_ifs with c1 c2 c3 <;> push_cast <;> constructor <;> linarith

theorem roundF64_normal (q : ℚ) (hlo : (2 : ℚ) ^ (-1022 : ℤ) ≤ |q|) (hhi : |q| < 2 ^ 1023) :
    ∃ r : ℚ, roundF64 q = F64.fin r ∧ |r - q| ≤ |q| / 2 ^ 53 ∧
      (0 < q → 0 < r) ∧ (q < 0 → r < 0) := by
  have h2 : (0 : ℚ) < 2 := by norm_num
  have ha : 0 < |q| := lt_of_lt_of_le (zpow_pos h2 _) hlo
  have hq0 : q ≠ 0 := abs_pos.mp ha
  obtain ⟨he_lo, he_hi⟩ := ilog2_spec |q| ha
  have hmax : (-1022 : ℤ) ≤ ilog2 |q| := by
    have : (2 : ℚ) ^ (-1022 : ℤ) < 2 ^ (ilog2 |q| + 1) := lt_of_le_of_lt hlo he_hi
    have := (zpow_lt_zpow_iff_right₀ (by norm_num : (1 : ℚ) < 2)).mp this
    omega
  set e := ilog2 |q| with he
  set ulp : ℚ := 2 ^ (e - 52) with hulp
  have hulp_pos : 0 < ulp := zpow_pos h2 _
  have hulp_le : ulp ≤ |q| / 2 ^ 52 := by
    have : ulp = 2 ^ e / 2 ^ 52 := by
      rw [hulp, zpow_sub₀ (by norm_num : (2 : ℚ) ≠ 0)]; norm_num
    rw [this]; exact div_le_div_of_nonneg_right he_lo (by positivity)
  set k : ℤ := roundHalfEven (|q| / ulp) with hk
  have hkerr := roundHalfEven_abs_sub_le (|q| / ulp)
  rw [← hk] at hkerr
  set v : ℚ := (k : ℚ) * ulp with hv
  have hverr : abs (v - |q|) ≤ |q| / 2 ^ 53 := by
    have e1 : v - |q| = ((k : ℚ) - |q| / ulp) * ulp := by
      rw [hv]; field_simp
    rw [e1, abs_mul, abs_of_pos hulp_pos]
    calc abs ((k : ℚ) - |q| / ulp) * ulp ≤ 1 / 2 * ulp :=
          mul_le_mul_of_nonneg_right hkerr hulp_pos.le
      _ ≤ 1 / 2 * (|q| / 2 ^ 52) := mul_le_mul_of_nonneg_left hulp_le (by norm_num)
      _ = |q| / 2 ^ 53 := by ring
  obtain ⟨hv1, hv2⟩ := abs_le.mp hverr
  have hsmall : |q| / 2 ^ 53 ≤ |q| / 2 := by
    apply div_le_div_of_nonneg_left ha.le (by norm_num) (by norm_num)
  have hvpos : 0 < v := by linarith
  have hvlt : ¬ (2 : ℚ) ^ 1024 ≤ v := by
    have : v < 2 ^ 1023 * 2 := by linarith
    have e2 : (2 : ℚ) ^ 1024 = 2 ^ 1023 * 2 := by norm_num
    rw [e2]; exact not_le.mpr this
  have hres : roundF64 q = F64.fin (if q < 0 then -v else v) := by
    unfold roundF64
    rw [if_neg hq0]
    simp only []
    rw [max_eq_left hmax, ← hulp, ← hk, ← hv, if_neg hvlt]
  refine ⟨_, hres, ?_, ?_, ?_⟩
  · by_cases hneg : q < 0
    · rw [if_pos hneg]
      have : -v - q = -(v - |q|) := by rw [abs_of_neg hneg]; ring
      rw [this, abs_neg]; exact hverr
    · rw [if_neg hneg]
      have : v - q = v - |q| := by rw [abs_of_nonneg (not_lt.mp hneg)]
      rw [this]; exact hverr
  · intro hpos
    rw [if_neg (not_lt.mpr hpos.le)]; exact hvpos
  · intro hneg
    rw [if_pos hneg]; linarith



theorem Near.abs_le {ε x y : ℚ} (h : Near ε x y) : |x| ≤ (1 + ε) * |y| := by
  unfold Near at h
  have := abs_sub_abs_le_abs_sub x y
  linarith

theorem Near.le_abs {ε x y : ℚ} (h : Near ε x y) : (1 - ε) * |y| ≤ |x| := by
  unfold Near at h
  have := abs_sub_abs_le_abs_sub y x
  rw [abs_sub_comm y x] at this
  linarith

theorem Near.trans {ε₁ ε₂ x y z : ℚ} (h1 : Near ε₁ x y) (h2 : Near ε₂ y z) (h0 : 0 ≤ ε₁) :
    Near (ε₁ + ε₂ + ε₁ * ε₂) x z := by
  have hy := h2.abs_le
  unfold Near at *
  have e : x - z = (x - y) + (y - z) := by ring
  have t := abs_add (x - y) (y - z)
  rw [← e] at t
  have : ε₁ * |y| ≤ ε₁ * ((1 + ε₂) * |z|) := mul_le_mul_of_nonneg_left hy h0
  linarith

theorem Near.mul_const {ε x y : ℚ} (h : Near ε x y) (c : ℚ) : Near ε (x * c) (y * c) := by
  unfold Near at *
  have e : x * c - y * c = (x - y) * c := by ring
  rw [e, abs_mul, abs_mul, ← mul_assoc]
  exact mul_le_mul_of_nonneg_right h (abs_nonneg c)

theorem Near.div {ε₁ ε₂ x y d D : ℚ} (h1 : Near ε₁ x y) (h2 : Near ε₂ d D)
    (h0 : 0 ≤ ε₁) (h0' : 0 ≤ ε₂) (hlt : ε₂ < 1) (hD : D ≠ 0) :
    Near ((ε₁ + ε₂) / (1 - ε₂)) (x / d) (y / D) := by
  have hDpos : 0 < |D| := abs_pos.mpr hD
  have hdlo := h2.le_abs
  have hdpos : 0 < |d| := lt_of_lt_of_le (mul_pos (by linarith) hDpos) hdlo
  have hd : d ≠ 0 := abs_pos.mp hdpos
  unfold Near at *
  have e : x / d - y / D = ((x - y) * D - y * (d - D)) / (d * D) := by
    field_simp; ring
  have hnum : |(x - y) * D - y * (d - D)| ≤ (ε₁ + ε₂) * |y| * |D| := by
    have t := abs_sub ((x - y) * D) (y * (d - D))
    rw [abs_mul, abs_mul] at t
    have a1 : |x - y| * |D| ≤ ε₁ * |y| * |D| := mul_le_mul_of_nonneg_right h1 hDpos.le
    have a2 : |y| * |d - D| ≤ |y| * (ε₂ * |D|) := mul_le_mul_of_nonneg_left h2 (abs_nonneg y)
    nlinarith
  rw [e, abs_div, abs_mul, abs_div, div_le_iff₀ (mul_pos hdpos hDpos)]
  have h1m : 0 < 1 - ε₂ := by linarith
  have key : (ε₁ + ε₂) * |y| * |D| ≤ (ε₁ + ε₂) / (1 - ε₂) * (|y| / |D|) * (|d| * |D|) := by
    have e2 : (ε₁ + ε₂) / (1 - ε₂) * (|y| / |D|) * (|d| * |D|)
        = (ε₁ + ε₂) * |y| * (|d| / (1 - ε₂)) := by
      field_simp
      ring
    rw [e2]
    apply mul_le_mul_of_nonneg_left _ (by positivity)
    rw [le_div_iff₀ h1m]; linarith
  linarith


theorem two_zpow_neg_le : (2 : ℚ) ^ (-1022 : ℤ) ≤ 1 / 2 ^ 80 := by
  have h : (2 : ℚ) ^ (-1022 : ℤ) ≤ 2 ^ (-80 : ℤ) :=
    zpow_le_zpow_right₀ (by norm_num) (by norm_num)
  have e : (2 : ℚ) ^ (-80 : ℤ) = 1 / 2 ^ 80 := by
    rw [zpow_neg, one_div]; norm_cast
  rwa [e] at h

theorem two_pow_le : (2 : ℚ) ^ 80 < 2 ^ 1023 := by
  exact pow_lt_pow_right₀ (by norm_num) (by norm_num)

theorem roundF64_near (q : ℚ) (hlo : 1 / 2 ^ 80 ≤ |q|) (hhi : |q| ≤ 2 ^ 80) :
    ∃ r : ℚ, roundF64 q = F64.fin r ∧ Near (1 / 2 ^ 53) r q ∧
      (0 < q → 0 < r) ∧ (q < 0 → r < 0) := by
  obtain ⟨r, h1, h2, h3⟩ :=
    roundF64_normal q (le_trans two_zpow_neg_le hlo) (lt_of_le_of_lt hhi two_pow_le)
  refine ⟨r, h1, ?_, h3⟩
  unfold Near
  rw [one_div, inv_mul_eq_div]; exact h2

theorem ofInt_near (n : ℤ) (hn : n ≠ 0) (hb : |n| ≤ 2 ^ 63) :
    ∃ r : ℚ, F64.ofInt n = F64.fin r ∧ Near (1 / 2 ^ 53) r n ∧
      (0 < n → 0 < r) ∧ (n < 0 → r < 0) := by
  have h1 : (1 : ℚ) ≤ |(n : ℚ)| := by
    have : 1 ≤ |n| := Int.one_le_abs hn
    exact_mod_cast this
  have h2 : |(n : ℚ)| ≤ 2 ^ 63 := by exact_mod_cast hb
  obtain ⟨r, e, hn1, hpos, hneg⟩ := roundF64_near (n : ℚ)
    (le_trans (by norm_num) h1) (le_trans h2 (by norm_num))
  refine ⟨r, e, hn1, ?_, ?_⟩
  · intro h; exact hpos (by exact_mod_cast h)
  · intro h; exact hneg (by exact_mod_cast h)

theorem pct_core (A D : ℤ) (hA : A ≠ 0) (hA2 : |A| ≤ 2 ^ 63) (hD : 0 < D) (hD2 : D ≤ 2 ^ 63) :
    ∃ r : ℚ, F64.mul (F64.div (F64.ofInt A) (F64.ofInt D)) (F64.ofInt 100) = F64.fin r ∧
      Near (1 / 2 ^ 50) r (100 * A / D) ∧ (0 < A → 0 < r) ∧ (A < 0 → r < 0) := by
  obtain ⟨a, ea, na, apos, aneg⟩ := ofInt_near A hA hA2
  obtain ⟨d, ed, nd, dpos, -⟩ := ofInt_near D hD.ne' (by rw [abs_of_pos hD]; exact hD2)
  have hd : 0 < d := dpos hD
  have hDq : (0 : ℚ) < D := by exact_mod_cast hD
  have hAq : (A : ℚ) ≠ 0 := by exact_mod_cast hA
  have h100 : F64.ofInt 100 = F64.fin 100 := by decide!
  -- the quotient
  have nq : Near ((1 / 2 ^ 53 + 1 / 2 ^ 53) / (1 - 1 / 2 ^ 53)) (a / d) ((A : ℚ) / D) :=
    Near.div na nd (by norm_num) (by norm_num) (by norm_num) hDq.ne'
  have hAD_lo : 1 / 2 ^ 63 ≤ |(A : ℚ) / D| := by
    rw [abs_div, abs_of_pos hDq, le_div_iff₀ hDq]
    have h1 : (1 : ℚ) ≤ |(A : ℚ)| := by
      have : 1 ≤ |A| := Int.one_le_abs hA
      exact_mod_cast this
    have h2 : (D : ℚ) ≤ 2 ^ 63 := by exact_mod_cast hD2
    calc 1 / 2 ^ 63 * (D : ℚ) ≤ 1 / 2 ^ 63 * 2 ^ 63 :=
          mul_le_mul_of_nonneg_left h2 (by norm_num)
      _ = 1 := by norm_num
      _ ≤ _ := h1
  have hAD_hi : |(A : ℚ) / D| ≤ 2 ^ 63 := by
    rw [abs_div, abs_of_pos hDq, div_le_iff₀ hDq]
    have h1 : |(A : ℚ)| ≤ 2 ^ 63 := by exact_mod_cast hA2
    have h2 : (1 : ℚ) ≤ D := by exact_mod_cast hD
    calc |(A : ℚ)| ≤ 2 ^ 63 := h1
      _ = 2 ^ 63 * 1 := by ring
      _ ≤ 2 ^ 63 * (D : ℚ) := mul_le_mul_of_nonneg_left h2 (by norm_num)
  have hq_lo := nq.le_abs
  have hq_hi := nq.abs_le
  obtain ⟨x, ex, nx, xpos, xneg⟩ := roundF64_near (a / d)
    (by
      refine le_trans ?_ hq_lo
      calc (1 : ℚ) / 2 ^ 80
          ≤ (1 - (1 / 2 ^ 53 + 1 / 2 ^ 53) / (1 - 1 / 2 ^ 53)) * (1 / 2 ^ 63) := by norm_num
        _ ≤ _ := mul_le_mul_of_nonneg_left hAD_lo (by norm_num))
    (by
      refine le_trans hq_hi ?_
      calc (1 + (1 / 2 ^ 53 + 1 / 2 ^ 53) / (1 - 1 / 2 ^ 53)) * |(A : ℚ) / D|
          ≤ (1 + (1 / 2 ^ 53 + 1 / 2 ^ 53) / (1 - 1 / 2 ^ 53)) * 2 ^ 63 :=
            mul_le_mul_of_nonneg_left hAD_hi (by norm_num)
        _ ≤ 2 ^ 80 := by norm_num)
  have nx2 := nx.trans nq (by norm_num)
  have hx_lo := nx2.le_abs
  have hx_hi := nx2.abs_le
  have ny := nx2.mul_const 100
  obtain ⟨r, er, nr, rpos, rneg⟩ := roundF64_near (x * 100)
    (by
      rw [abs_mul]
      have : (1 : ℚ) / 2 ^ 80 ≤ |x| := by
        refine le_trans ?_ hx_lo
        calc (1 : ℚ) / 2 ^ 80 ≤ _ * (1 / 2 ^ 63) := by norm_num
          _ ≤ _ := mul_le_mul_of_nonneg_left hAD_lo (by norm_num)
      calc (1 : ℚ) / 2 ^ 80 ≤ |x| := this
        _ = |x| * 1 := by ring
        _ ≤ |x| * |(100 : ℚ)| := mul_le_mul_of_nonneg_left (by norm_num) (abs_nonneg x))
    (by
      rw [abs_mul]
      have : |x| ≤ 2 ^ 64 := by
        refine le_trans hx_hi ?_
        calc _ ≤ _ * (2 : ℚ) ^ 63 := mul_le_mul_of_nonneg_left hAD_hi (by norm_num)
          _ ≤ 2 ^ 64 := by norm_num
      calc |x| * |(100 : ℚ)| ≤ 2 ^ 64 * |(100 : ℚ)| :=
            mul_le_mul_of_nonneg_right this (abs_nonneg _)
        _ ≤ 2 ^ 80 := by norm_num)
  have nfinal := nr.trans ny (by norm_num)
  refine ⟨r, ?_, ?_, ?_, ?_⟩
  · rw [ea, ed, h100]
    simp only [F64.div, F64.mul, if_neg hd.ne']
    rw [ex]
    simp only [F64.mul]
    exact er
  · have e : (100 : ℚ) * A / D = (A : ℚ) / D * 100 := by ring
    rw [e]
    unfold Near at nfinal ⊢
    refine le_trans nfinal (mul_le_mul_of_nonneg_right (by norm_num) (abs_nonneg _))
  · intro h
    exact rpos (mul_pos (xpos (div_pos (apos h) hd)) (by norm_num))
  · intro h
    exact rneg (mul_neg_of_neg_of_pos (xneg (div_neg_of_neg_of_pos (aneg h) hd)) (by norm_num))

theorem roundHalfEven_intCast (m : ℤ) : roundHalfEven (m : ℚ) = m := by
  unfold roundHalfEven
  simp

theorem roundHalfEven_nonneg (x : ℚ) (hx : 0 ≤ x) : 0 ≤ roundHalfEven x := by
  have hf : 0 ≤ ⌊x⌋ := Int.floor_nonneg.mpr hx
  unfold roundHalfEven
  simp only
  split_ifs <;> omega

theorem roundF64_nonneg (q : ℚ) (hq : 0 ≤ q) :
    roundF64 q = F64.posInf ∨ ∃ g : ℚ, 0 ≤ g ∧ roundF64 q = F64.fin g := by
  by_cases h0 : q = 0
  · right; exact ⟨0, le_refl _, by simp [roundF64, h0]⟩
  · have hneg : ¬ q < 0 := not_lt.mpr hq
    unfold roundF64
    rw [if_neg h0]
    simp only [if_neg hneg]
    split_ifs with hbig
    · left; rfl
    · right
      refine ⟨_, ?_, rfl⟩
      apply mul_nonneg
      · exact_mod_cast roundHalfEven_nonneg _ (div_nonneg (abs_nonneg q) (zpow_pos (by norm_num) _).le)
      · exact (zpow_pos (by norm_num) _).le

theorem roundF64_natCast (n : Nat) (hn : n < 2 ^ 53) : roundF64 (n : ℚ) = F64.fin n := by
  by_cases h0 : n = 0
  · subst h0; simp [roundF64]
  have hn1 : 1 ≤ n := Nat.one_le_iff_ne_zero.mpr h0
  have hq0 : (n : ℚ) ≠ 0 := by exact_mod_cast h0
  have hpos : (0 : ℚ) < n := by exact_mod_cast hn1
  have habs : |(n : ℚ)| = n := abs_of_pos hpos
  obtain ⟨he_lo, he_hi⟩ := ilog2_spec (n : ℚ) hpos
  set e := ilog2 (n : ℚ) with he
  have h2 : (1 : ℚ) < 2 := by norm_num
  have he0 : 0 ≤ e := by
    have h1 : (2 : ℚ) ^ (0 : ℤ) < 2 ^ (e + 1) := by
      rw [zpow_zero]
      exact lt_of_le_of_lt (by exact_mod_cast hn1) he_hi
    have := (zpow_lt_zpow_iff_right₀ h2).mp h1
    omega
  have he52 : e ≤ 52 := by
    have h1 : (2 : ℚ) ^ e < 2 ^ (53 : ℤ) := by
      refine lt_of_le_of_lt he_lo ?_
      have : (n : ℚ) < 2 ^ 53 := by exact_mod_cast hn
      have e53 : (2 : ℚ) ^ (53 : ℤ) = 2 ^ 53 := by norm_cast
      rw [e53]; exact this
    have := (zpow_lt_zpow_iff_right₀ h2).mp h1
    omega
  obtain ⟨k, hk⟩ : ∃ k : Nat, (k : ℤ) = 52 - e := ⟨(52 - e).toNat, by omega⟩
  have hulp : (2 : ℚ) ^ (e - 52) = 1 / 2 ^ k := by
    have : e - 52 = -(k : ℤ) := by omega
    rw [this, zpow_neg, zpow_natCast, one_div]
  have hdiv : (n : ℚ) / (1 / 2 ^ k) = (((n * 2 ^ k : Nat) : ℤ) : ℚ) := by
    push_cast; field_simp
  have hv : ((((n * 2 ^ k : Nat) : ℤ) : ℚ)) * (1 / 2 ^ k) = n := by
    push_cast; field_simp
  have hlt : ¬ (2 : ℚ) ^ 1024 ≤ n := by
    have : (n : ℚ) < 2 ^ 53 := by exact_mod_cast hn
    have h3 : (2 : ℚ) ^ 53 ≤ 2 ^ 1024 := pow_le_pow_right₀ (by norm_num) (by norm_num)
    exact not_le.mpr (lt_of_lt_of_le this h3)
  unfold roundF64
  rw [if_neg hq0]
  simp only [habs]
  rw [max_eq_left (by omega : (-1022 : ℤ) ≤ ilog2 (n : ℚ)), ← he, hulp, hdiv,
    roundHalfEven_intCast, hv, if_neg hlt, if_neg (not_lt.mpr hpos.le)]

theorem ofInt_natCast (n : Nat) (hn : n < 2 ^ 53) : F64.ofInt (n : ℤ) = F64.fin n := by
  unfold F64.ofInt
  have := roundF64_natCast n hn
  simpa using this

theorem toInt_of_nonneg (cvt : F64 → ℤ) (m : ℚ) (h0 : 0 ≤ m) (h1 : m ≤ 2 ^ 62) :
    F64.toInt cvt (F64.fin m) = ⌊m⌋ := by
  have hf0 : 0 ≤ ⌊m⌋ := Int.floor_nonneg.mpr h0
  have hf1 : ⌊m⌋ ≤ 2 ^ 62 := by
    have : (⌊m⌋ : ℚ) ≤ 2 ^ 62 := le_trans (Int.floor_le m) h1
    exact_mod_cast this
  unfold F64.toInt minInt64 maxInt64
  simp only [if_pos h0]
  rw [if_pos ⟨by omega, by omega⟩]

/-! ## Machine integers and the loop of run -/

theorem accOf_nondecreasing (c1 c2 : Nat) (h12 : c1 ≤ c2) (hov : 1000 * (c2 - c1) < 2 ^ 63) :
    accOf c2 c1 = 1000 * ((c2 : ℤ) - c1) := by
  unfold accOf wrapI64 wrapU64 Microsecond
  omega

theorem accOf_decreasing (c1 c2 : Nat) (h21 : c2 < c1) (hov : 1000 * (c1 - c2) < 2 ^ 63) :
    wrapU64 ((c2 : ℤ) - c1) = 2 ^ 64 - ((c1 : ℤ) - c2) ∧
    wrapI64 (wrapU64 ((c2 : ℤ) - c1)) = -((c1 : ℤ) - c2) ∧
    accOf c2 c1 = -(1000 * ((c1 : ℤ) - c2)) := by
  unfold accOf wrapI64 wrapU64 Microsecond
  omega

theorem timeSub_le (t u : ℤ) : timeSub t u ≤ 2 ^ 63 := by
  unfold timeSub minInt64 maxInt64
  omega

theorem collect_ok (res : String → Except Error PSI) :
    ∀ (ps : List String) (m m1 : String → Option PSI), collect res ps m = .ok m1 →
      (∀ p ∈ ps, ∃ psi, res p = .ok psi ∧ m1 p = some psi) ∧ (∀ q, q ∉ ps → m1 q = m q) := by
  intro ps
  induction ps with
  | nil =>
    intro m m1 h
    simp only [collect, Except.ok.injEq] at h
    subst h
    simp
  | cons p ps ih =>
    intro m m1 h
    unfold collect at h
    cases hr : res p with
    | error e => rw [hr] at h; simp at h
    | ok psi =>
      rw [hr] at h
      simp only at h
      obtain ⟨h1, h2⟩ := ih _ _ h
      constructor
      · intro x hx
        by_cases hxp : x ∈ ps
        · exact h1 x hxp
        · have hxe : x = p := by simpa [hxp] using hx
          subst hxe
          refine ⟨psi, hr, ?_⟩
          rw [h2 x hxp]; simp [setKey]
      · intro q hq
        have hq1 : q ∉ ps := fun h => hq (List.mem_cons_of_mem _ h)
        have hq2 : q ≠ p := fun h => hq (h ▸ List.mem_cons_self _ _)
        rw [h2 q hq1]; simp [setKey, hq2]

theorem collect_error (res : String → Except Error PSI) (e : Error) :
    ∀ (pre : List String) (p : String) (post : List String) (m : String → Option PSI),
      (∀ q ∈ pre, ∃ psi, res q = .ok psi) → res p = .error e →
      collect res (pre ++ p :: post) m = .error e := by
  intro pre
  induction pre with
  | nil =>
    intro p post m _ hp
    simp [collect, hp]
  | cons a pre ih =>
    intro p post m hpre hp
    obtain ⟨psi, ha⟩ := hpre a (List.mem_cons_self _ _)
    simp only [List.cons_append, collect, ha]
    exact ih p post _ (fun q hq => hpre q (List.mem_cons_of_mem _ hq)) hp

theorem appendTrim_length (h : List TimePoint) (tp : TimePoint) :
    (appendTrim h tp).length = Min.min (h.length + 1) (Max.max limit h.length) := by
  unfold appendTrim limit
  simp only [List.length_append, List.length_singleton]
  split_ifs with c
  · simp only [List.length_drop, List.length_append, List.length_singleton]; omega
  · simp only [List.length_append, List.length_singleton]; omega

theorem appendTrim_length_le (h : List TimePoint) (tp : TimePoint) (hl : h.length ≤ limit) :
    (appendTrim h tp).length ≤ limit := by
  rw [appendTrim_length]; omega

theorem meterLoop_length_le (r : RoundInput) (last : measurement) (psis : String → Option PSI) :
    ∀ (ps : List String) (history : String → List TimePoint) (calls : List MeterCall),
      (∀ q, (history q).length ≤ limit) →
      ∀ q, ((meterLoop r last psis ps history calls).history q).length ≤ limit := by
  intro ps
  induction ps with
  | nil => intro history calls h q; simpa [meterLoop] using h q
  | cons p ps ih =>
    intro history calls h q
    unfold meterLoop
    simp only
    split
    · split
      · exact h q
      · apply ih
        intro x
        unfold setKey
        split_ifs with hx
        · exact appendTrim_length_le _ _ (h p)
        · exact h x
    · exact h q

theorem meterLoop_calls_mono (r : RoundInput) (last : measurement)
    (psis : String → Option PSI) :
    ∀ (ps : List String) (history : String → List TimePoint) (calls : List MeterCall),
      ∀ c ∈ calls, c ∈ (meterLoop r last psis ps history calls).calls := by
  intro ps
  induction ps with
  | nil => intro history calls c hc; simpa [meterLoop] using hc
  | cons p ps ih =>
    intro history calls c hc
    unfold meterLoop
    simp only
    split
    · split
      · simp [hc]
      · exact ih _ _ c (by simp [hc])
    · exact hc

theorem meterLoop_history_other (r : RoundInput) (last : measurement)
    (psis : String → Option PSI) :
    ∀ (ps : List String) (history : String → List TimePoint) (calls : List MeterCall),
      ∀ q, q ∉ ps → (meterLoop r last psis ps history calls).history q = history q := by
  intro ps
  induction ps with
  | nil => intro history calls q _; simp [meterLoop]
  | cons p ps ih =>
    intro history calls q hq
    have hq1 : q ∉ ps := fun h => hq (List.mem_cons_of_mem _ h)
    have hq2 : q ≠ p := fun h => hq (h ▸ List.mem_cons_self _ _)
    unfold meterLoop
    simp only
    split
    · split
      · rfl
      · rw [ih _ _ q hq1]; simp [setKey, hq2]
    · rfl

/-- The loop reaches the path `p` when the `printMeter` calls of the paths
before it return; the rate of `p` is then passed to `printMeter` and, when
that call returns, appended to the history of `p`, whatever happens at the
paths after it. -/
theorem meterLoop_reach (r : RoundInput) (last : measurement) (psis : String → Option PSI)
    (p : String) (post : List String) (cur prev : PSI)
    (hc : psis p = some cur) (hl : last.psis p = some prev) :
    ∀ (pre : List String) (history : String → List TimePoint) (calls : List MeterCall),
      (pre ++ p :: post).Nodup →
      (∀ x ∈ pre, ∃ (cx px : PSI) (v : List String × Bool), psis x = some cx ∧
        last.psis x = some px ∧
        printMeter r.cvt (r.term x)
          (pctOf (timeSub r.now last.t) cx.SomeTotal px.SomeTotal) (F64.fin 100) = .ok v) →
      MeterCall.mk p (pctOf (timeSub r.now last.t) cur.SomeTotal prev.SomeTotal) (F64.fin 100)
          ∈ (meterLoop r last psis (pre ++ p :: post) history calls).calls ∧
      ((∃ v, printMeter r.cvt (r.term p)
          (pctOf (timeSub r.now last.t) cur.SomeTotal prev.SomeTotal) (F64.fin 100) = .ok v) →
        (meterLoop r last psis (pre ++ p :: post) history calls).history p =
          appendTrim (history p)
            ⟨r.now, pctOf (timeSub r.now last.t) cur.SomeTotal prev.SomeTotal⟩) := by
  intro pre
  induction pre with
  | nil =>
    intro history calls hnd _
    have hp : p ∉ post := (List.nodup_cons.mp hnd).1
    simp only [List.nil_append]
    unfold meterLoop
    simp only [hc, hl]
    cases hm : printMeter r.cvt (r.term p)
        (pctOf (timeSub r.now last.t) cur.SomeTotal prev.SomeTotal) (F64.fin 100) with
    | error e =>
      refine ⟨by simp, ?_⟩
      rintro ⟨v, hv⟩
      simp at hv
    | ok v =>
      simp only
      refine ⟨meterLoop_calls_mono r last psis post _ _ _ (by simp), fun _ => ?_⟩
      rw [meterLoop_history_other r last psis post _ _ p hp]
      simp [setKey]
  | cons x pre ih =>
    intro history calls hnd hpre
    rw [List.cons_append] at hnd
    obtain ⟨hx, hnd1⟩ := List.nodup_cons.mp hnd
    have hpx : p ≠ x := by
      intro h; apply hx; rw [← h]; simp
    obtain ⟨cx, px, v, h1, h2, h3⟩ := hpre x (List.mem_cons_self _ _)
    simp only [List.cons_append]
    unfold meterLoop
    simp only [h1, h2, h3]
    obtain ⟨i1, i2⟩ := ih
      (setKey history x (appendTrim (history x)
        ⟨r.now, pctOf (timeSub r.now last.t) cx.SomeTotal px.SomeTotal⟩))
      (calls ++ [⟨x, pctOf (timeSub r.now last.t) cx.SomeTotal px.SomeTotal, F64.fin 100⟩])
      hnd1 (fun y hy => hpre y (List.mem_cons_of_mem _ hy))
    refine ⟨i1, fun hv => ?_⟩
    rw [i2 hv]
    simp [setKey, hpx]

theorem paths_nodup : paths.Nodup := by decide

theorem roundStep_read_error (s : State) (r : RoundInput) (e : Error)
    (h : getPSIs r.files = .error e) :
    roundStep s r = { state := s, calls := [], err := some e } := by
  simp [roundStep, h]

theorem roundStep_cold (s : State) (r : RoundInput) (psis : String → Option PSI)
    (h : getPSIs r.files = .ok psis) (hl : s.last = none) :
    roundStep s r =
      { state := { last := some { t := r.now, psis := psis }, history := s.history },
        calls := [], err := none } := by
  simp [roundStep, h, hl]

theorem roundStep_warm (s : State) (r : RoundInput) (last : measurement)
    (psis : String → Option PSI) (hl : s.last = some last)
    (hg : getPSIs r.files = .ok psis) :
    (roundStep s r).state.history = (meterLoop r last psis paths s.history []).history ∧
    (roundStep s r).calls = (meterLoop r last psis paths s.history []).calls ∧
    (roundStep s r).err = (meterLoop r last psis paths s.history []).err := by
  unfold roundStep
  rw [hg]
  simp only [hl]
  cases he : (meterLoop r last psis paths s.history []).err with
  | none => simp
  | some e => simp

/-! ## The rate -/

theorem ofInt_zero : F64.ofInt 0 = F64.fin 0 := by
  simp [F64.ofInt, roundF64]

theorem ofInt_hundred : F64.ofInt 100 = F64.fin 100 := by decide!

theorem pctOf_of_acc_zero (dt cur prev : ℤ) (h : accOf cur prev = 0) (hdt : 0 < dt)
    (hdt2 : dt ≤ 2 ^ 63) : pctOf dt cur prev = F64.fin 0 := by
  obtain ⟨d, ed, -, dpos, -⟩ := ofInt_near dt hdt.ne' (by rw [abs_of_pos hdt]; exact hdt2)
  have hd : d ≠ 0 := (dpos hdt).ne'
  unfold pctOf
  rw [h, ofInt_zero, ed, ofInt_hundred]
  simp [F64.div, F64.mul, hd, roundF64]

theorem pctOf_nondecreasing (dt : ℤ) (c1 c2 : Nat) (h12 : c1 ≤ c2)
    (hov : 1000 * (c2 - c1) < 2 ^ 63) (hdt : 0 < dt) (hdt2 : dt ≤ 2 ^ 63) :
    ∃ q : ℚ, pctOf dt c2 c1 = F64.fin q ∧ 0 ≤ q ∧
      |q - 100 * (1000 * ((c2 : ℚ) - c1)) / dt| ≤ 100 * (1000 * ((c2 : ℚ) - c1)) / dt / 2 ^ 50 := by
  have hacc := accOf_nondecreasing c1 c2 h12 hov
  rcases Nat.eq_or_lt_of_le h12 with heq | hlt
  · subst heq
    refine ⟨0, pctOf_of_acc_zero dt _ _ (by rw [hacc]; ring) hdt hdt2, le_refl _, ?_⟩
    simp
  · have hA : (0 : ℤ) < 1000 * ((c2 : ℤ) - c1) := by omega
    have hA2 : |1000 * ((c2 : ℤ) - c1)| ≤ 2 ^ 63 := by
      rw [abs_of_pos hA]; omega
    obtain ⟨q, e, hn, hpos, -⟩ := pct_core _ dt hA.ne' hA2 hdt hdt2
    have hdq : (0 : ℚ) < dt := by exact_mod_cast hdt
    have hE : (0 : ℚ) < 100 * (1000 * ((c2 : ℚ) - c1)) / dt := by
      have : (0 : ℚ) < 1000 * ((c2 : ℚ) - c1) := by exact_mod_cast hA
      positivity
    refine ⟨q, ?_, (hpos hA).le, ?_⟩
    · unfold pctOf; rw [hacc]; exact e
    · unfold Near at hn
      push_cast at hn
      rw [abs_of_pos hE] at hn
      calc _ ≤ 1 / 2 ^ 50 * (100 * (1000 * ((c2 : ℚ) - c1)) / dt) := hn
        _ = _ := by ring

theorem pctOf_decreasing (dt : ℤ) (c1 c2 : Nat) (h21 : c2 < c1)
    (hov : 1000 * (c1 - c2) < 2 ^ 63) (hdt : 0 < dt) (hdt2 : dt ≤ 2 ^ 63) :
    accOf c2 c1 = -(1000 * ((c1 : ℤ) - c2)) ∧
    ∃ q : ℚ, pctOf dt c2 c1 = F64.fin q ∧ q < 0 ∧
      |q - -(100 * (1000 * ((c1 : ℚ) - c2)) / dt)| ≤
        100 * (1000 * ((c1 : ℚ) - c2)) / dt / 2 ^ 50 := by
  obtain ⟨-, -, hacc⟩ := accOf_decreasing c1 c2 h21 hov
  refine ⟨hacc, ?_⟩
  have hA : -(1000 * ((c1 : ℤ) - c2)) < 0 := by omega
  have hA2 : |(-(1000 * ((c1 : ℤ) - c2)))| ≤ 2 ^ 63 := by
    rw [abs_of_neg hA]; omega
  obtain ⟨q, e, hn, -, hneg⟩ := pct_core _ dt hA.ne hA2 hdt hdt2
  have hdq : (0 : ℚ) < dt := by exact_mod_cast hdt
  have hE : (0 : ℚ) < 100 * (1000 * ((c1 : ℚ) - c2)) / dt := by
    have : (0 : ℚ) < 1000 * ((c1 : ℚ) - c2) := by
      have : (0 : ℤ) < 1000 * ((c1 : ℤ) - c2) := by omega
      exact_mod_cast this
    positivity
  refine ⟨q, ?_, hneg hA, ?_⟩
  · unfold pctOf; rw [hacc]; exact e
  · unfold Near at hn
    push_cast at hn
    have e1 : (100 : ℚ) * -(1000 * ((c1 : ℚ) - c2)) / dt
        = -(100 * (1000 * ((c1 : ℚ) - c2)) / dt) := by ring
    rw [e1, abs_neg, abs_of_pos hE] at hn
    calc _ ≤ 1 / 2 ^ 50 * (100 * (1000 * ((c1 : ℚ) - c2)) / dt) := hn
      _ = _ := by ring

theorem roundStep_length_le (s : State) (r : RoundInput)
    (h : ∀ q, (s.history q).length ≤ limit) :
    ∀ q, ((roundStep s r).state.history q).length ≤ limit := by
  intro q
  cases hg : getPSIs r.files with
  | error e => rw [roundStep_read_error s r e hg]; exact h q
  | ok psis =>
    cases hl : s.last with
    | none => rw [roundStep_cold s r psis hg hl]; exact h q
    | some last =>
      rw [(roundStep_warm s r last psis hl hg).1]
      exact meterLoop_length_le r last psis paths s.history [] h q

theorem runRounds_length_le :
    ∀ (rs : List RoundInput) (s : State), (∀ q, (s.history q).length ≤ limit) →
      ∀ q, ((runRounds s rs).1.history q).length ≤ limit := by
  intro rs
  induction rs with
  | nil => intro s h q; simpa [runRounds] using h q
  | cons r rs ih =>
    intro s h q
    unfold runRounds
    simp only
    cases he : (roundStep s r).err with
    | some e => exact roundStep_length_le s r h q
    | none => exact ih _ (roundStep_length_le s r h) q

theorem termWidth_range (tm : Terminal) : -1 ≤ termWidth tm ∧ termWidth tm ≤ 65534 := by
  unfold termWidth
  split_ifs
  · split
    · constructor <;> norm_num
    · constructor <;> omega
  · constructor <;> norm_num

theorem glyphAt_ok (i : Nat) (hi : i ≤ 8) : ∃ g, glyphAt (i : ℤ) = .ok g := by
  unfold glyphAt
  rw [if_pos (by omega)]
  simp only [Int.toNat_ofNat]
  interval_cases i <;> exact ⟨_, rfl⟩

theorem barLoop_ok (cvt : F64 → ℤ) :
    ∀ (n k : Nat), k < 2 ^ 53 → ∃ cs, barLoop cvt n (k : ℤ) = .ok cs := by
  intro n
  induction n with
  | zero => intro k _; exact ⟨[], rfl⟩
  | succ n ih =>
    intro k hk
    have hc : F64.toInt cvt (min (F64.ofInt (k : ℤ)) (F64.fin 8)) = ((Min.min k 8 : Nat) : ℤ) := by
      rw [ofInt_natCast k hk]
      unfold min F64.lt
      by_cases h8 : k < 8
      · have : ((k : ℚ) < 8) := by exact_mod_cast h8
        simp only [this, decide_True, if_true]
        rw [toInt_of_nonneg cvt _ (by positivity)
          (le_trans (le_of_lt this) (by norm_num))]
        simp [Nat.min_eq_left (le_of_lt h8)]
      · have : ¬ ((k : ℚ) < 8) := by
          intro h; exact h8 (by exact_mod_cast h)
        simp only [this, decide_False]
        rw [if_neg (by simp), toInt_of_nonneg cvt _ (by norm_num) (by norm_num)]
        have e : Min.min k 8 = 8 := Nat.min_eq_right (by omega)
        rw [e]
        have : ⌊(8 : ℚ)⌋ = 8 := by
          have := Int.floor_intCast (α := ℚ) 8
          simp
        rw [this]; rfl
    obtain ⟨g, hg⟩ := glyphAt_ok (Min.min k 8) (Nat.min_le_right _ _)
    have hrem : wrapI64 ((k : ℤ) - ((Min.min k 8 : Nat) : ℤ)) = ((k - Min.min k 8 : Nat) : ℤ) := by
      unfold wrapI64
      have : Min.min k 8 ≤ k := Nat.min_le_left _ _
      omega
    obtain ⟨cs, hcs⟩ := ih (k - Min.min k 8) (by omega)
    refine ⟨g :: cs, ?_⟩
    unfold barLoop
    simp only [hc, hg, hrem, hcs]


theorem initialFill_range (cvt : F64 → ℤ) (width : ℤ) (frac : F64)
    (hw0 : 0 ≤ width) (hw1 : width ≤ 65534)
    (hf : frac = F64.nan ∨ frac = F64.posInf ∨ ∃ f : ℚ, 0 ≤ f ∧ frac = F64.fin f) :
    ∃ k : Nat, initialFill cvt width frac = (k : ℤ) ∧ (k : ℤ) ≤ width * 8 := by
  obtain ⟨W, hW⟩ : ∃ W : Nat, (W : ℤ) = width * 8 := ⟨(width * 8).toNat, by omega⟩
  have hW1 : W < 2 ^ 53 := by omega
  have hwrap : wrapI64 (width * 8) = (W : ℤ) := by
    unfold wrapI64; omega
  have hWq : (W : ℚ) ≤ 2 ^ 62 := by
    have : W ≤ 2 ^ 62 := by omega
    exact_mod_cast this
  have hfull : F64.toInt cvt (F64.fin (W : ℚ)) = (W : ℤ) := by
    rw [toInt_of_nonneg cvt _ (by positivity) hWq]
    simp
  have hmin : ∀ x : F64, x = F64.nan ∨ x = F64.posInf ∨ (∃ g : ℚ, 0 ≤ g ∧ x = F64.fin g) →
      ∃ k : Nat, F64.toInt cvt (min x (F64.fin (W : ℚ))) = (k : ℤ) ∧ k ≤ W := by
    intro x hx
    rcases hx with rfl | rfl | ⟨g, hg0, rfl⟩
    · exact ⟨W, by simp [min, F64.lt, hfull], le_refl _⟩
    · exact ⟨W, by simp [min, F64.lt, hfull], le_refl _⟩
    · by_cases hlt : g < (W : ℚ)
      · have hfl : 0 ≤ ⌊g⌋ := Int.floor_nonneg.mpr hg0
        obtain ⟨k, hk⟩ : ∃ k : Nat, (k : ℤ) = ⌊g⌋ := ⟨⌊g⌋.toNat, by omega⟩
        refine ⟨k, ?_, ?_⟩
        · simp only [min, F64.lt, hlt, decide_True, if_true]
          rw [toInt_of_nonneg cvt g hg0 (le_trans hlt.le hWq), hk]
        · have h1 : (⌊g⌋ : ℚ) ≤ g := Int.floor_le g
          have h2 : ((k : ℤ) : ℚ) < (W : ℚ) := by rw [hk]; exact lt_of_le_of_lt h1 hlt
          have h3 : k < W := by exact_mod_cast h2
          exact h3.le
      · refine ⟨W, ?_, le_refl _⟩
        simp only [min, F64.lt, hlt, decide_False]
        rw [if_neg (by simp)]
        exact hfull
  have hmul : F64.mul (F64.fin (W : ℚ)) frac = F64.nan ∨
      F64.mul (F64.fin (W : ℚ)) frac = F64.posInf ∨
      ∃ g : ℚ, 0 ≤ g ∧ F64.mul (F64.fin (W : ℚ)) frac = F64.fin g := by
    rcases hf with rfl | rfl | ⟨f, hf0, rfl⟩
    · left; rfl
    · by_cases hz : (W : ℚ) = 0
      · left; simp [F64.mul, hz]
      · have : (0 : ℚ) < W := lt_of_le_of_ne (by positivity) (Ne.symm hz)
        right; left; simp [F64.mul, hz, this]
    · right
      simp only [F64.mul]
      exact roundF64_nonneg _ (mul_nonneg (by positivity) hf0)
  obtain ⟨k, hk, hkW⟩ := hmin _ hmul
  refine ⟨k, ?_, by omega⟩
  unfold initialFill
  simp only [hwrap, ofInt_natCast W hW1]
  exact hk

theorem fracOf_nonneg (q : ℚ) (hq : 0 ≤ q) :
    fracOf (F64.fin q) (F64.fin 100) = F64.posInf ∨
      ∃ f : ℚ, 0 ≤ f ∧ fracOf (F64.fin q) (F64.fin 100) = F64.fin f := by
  have h : fracOf (F64.fin q) (F64.fin 100) = roundF64 (q / 100) := by
    simp [fracOf, F64.neZero, F64.div]
  rw [h]
  exact roundF64_nonneg _ (by positivity)

theorem printMeter_ok (cvt : F64 → ℤ) (tm : Terminal) (q : ℚ) (hq : 0 ≤ q) :
    ∃ v, printMeter cvt tm (F64.fin q) (F64.fin 100) = .ok v := by
  obtain ⟨hw0, hw1⟩ := termWidth_range tm
  have hbar : ∃ cs, barLoop cvt (termWidth tm).toNat
      (initialFill cvt (termWidth tm) (fracOf (F64.fin q) (F64.fin 100))) = .ok cs := by
    by_cases hneg : termWidth tm < 0
    · have : (termWidth tm).toNat = 0 := by omega
      rw [this]; exact ⟨[], rfl⟩
    · obtain ⟨k, hk, hk2⟩ := initialFill_range cvt (termWidth tm)
        (fracOf (F64.fin q) (F64.fin 100)) (by omega) hw1
        (Or.inr (fracOf_nonneg q hq))
      rw [hk]
      exact barLoop_ok cvt _ k (by omega)
  obtain ⟨cs, hcs⟩ := hbar
  unfold printMeter
  simp only [hcs]
  exact ⟨_, rfl⟩

theorem meterLoop_completes (r : RoundInput) (last : measurement)
    (psis : String → Option PSI) :
    ∀ (ps : List String) (history : String → List TimePoint) (calls : List MeterCall),
      (∀ p ∈ ps, ∃ (cur prev : PSI) (q : ℚ), psis p = some cur ∧ last.psis p = some prev ∧
        pctOf (timeSub r.now last.t) cur.SomeTotal prev.SomeTotal = F64.fin q ∧ 0 ≤ q) →
      (meterLoop r last psis ps history calls).err = none := by
  intro ps
  induction ps with
  | nil => intro history calls _; rfl
  | cons p ps ih =>
    intro history calls h
    obtain ⟨cur, prev, q, hc, hl, hq, hq0⟩ := h p (List.mem_cons_self _ _)
    obtain ⟨v, hv⟩ := printMeter_ok r.cvt (r.term p) q hq0
    unfold meterLoop
    simp only [hc, hl, hq, hv]
    exact ih _ _ (fun x hx => h x (List.mem_cons_of_mem _ hx))

theorem collect_total (res : String → Except Error PSI) :
    ∀ (ps : List String) (m : String → Option PSI),
      (∀ p ∈ ps, ∃ psi, res p = .ok psi) → ∃ m1, collect res ps m = .ok m1 := by
  intro ps
  induction ps with
  | nil => intro m _; exact ⟨m, rfl⟩
  | cons p ps ih =>
    intro m h
    obtain ⟨psi, hpsi⟩ := h p (List.mem_cons_self _ _)
    obtain ⟨m1, hm1⟩ := ih (setKey m p (some psi)) (fun x hx => h x (List.mem_cons_of_mem _ hx))
    exact ⟨m1, by simp only [collect, hpsi, hm1]⟩

/-- In a warm round in which every file is read and no counter has decreased,
each by less than `2^63 / 1000`, over a positive elapsed time, the reads and
the three `printMeter` calls go through: the step ends without an error.  (The
call of `drawCharts` that follows is outside the step.) -/
theorem roundStep_err_none (s : State) (r : RoundInput) (last : measurement)
    (hwarm : s.last = some last) (hdt : 0 < timeSub r.now last.t)
    (h : ∀ p ∈ paths, ∃ c1 c2 : Nat, last.psis p = some ⟨c1⟩ ∧
      readPSI r.files p = .ok ⟨c2⟩ ∧ c1 ≤ c2 ∧ 1000 * (c2 - c1) < 2 ^ 63) :
    (roundStep s r).err = none := by
  obtain ⟨psis, hg⟩ := collect_total (readPSI r.files) paths (fun _ => none)
    (fun p hp => by
      obtain ⟨c1, c2, -, h2, -⟩ := h p hp
      exact ⟨_, h2⟩)
  obtain ⟨g1, -⟩ := collect_ok (readPSI r.files) paths _ psis hg
  rw [(roundStep_warm s r last psis hwarm hg).2.2]
  apply meterLoop_completes
  intro p hp
  obtain ⟨c1, c2, h1, h2, h3, h4⟩ := h p hp
  obtain ⟨psi, hpsi, hpsi2⟩ := g1 p hp
  rw [h2] at hpsi
  injection hpsi with hpsi
  obtain ⟨q, hq, hq0, -⟩ :=
    pctOf_nondecreasing (timeSub r.now last.t) c1 c2 h3 h4 hdt (timeSub_le _ _)
  exact ⟨⟨c2⟩, ⟨c1⟩, q, by rw [hpsi2, hpsi], h1, hq, hq0⟩

/-! ## readPSI on digit strings -/

theorem foldl_digit_ge (ds : List Char) :
    ∀ n : Nat, n ≤ ds.foldl (fun n c => n * 10 + (c.toNat - 48)) n := by
  induction ds with
  | nil => intro n; exact le_refl _
  | cons c cs ih =>
    intro n
    rw [List.foldl_cons]
    exact le_trans (by omega) (ih _)

theorem parseUintLoop_digits (ds : List Char) :
    ∀ n : Nat, (∀ c ∈ ds, 48 ≤ c.toNat ∧ c.toNat ≤ 57) →
      ds.foldl (fun n c => n * 10 + (c.toNat - 48)) n < 2 ^ 64 →
      parseUintLoop ds n = (ds.foldl (fun n c => n * 10 + (c.toNat - 48)) n, none) := by
  induction ds with
  | nil => intro n _ _; rfl
  | cons c cs ih =>
    intro n hd hv
    rw [List.foldl_cons] at hv ⊢
    have hc := hd c (List.mem_cons_self _ _)
    have hge := foldl_digit_ge cs (n * 10 + (c.toNat - 48))
    have h1 : ¬ (n ≥ (2 ^ 64 - 1) / 10 + 1) := by omega
    have h2 : ¬ (n * 10 + (c.toNat - 48) > 2 ^ 64 - 1) := by omega
    unfold parseUintLoop
    simp only [hc, and_self, if_true, h1, h2, if_false]
    exact ih _ (fun x hx => hd x (List.mem_cons_of_mem _ hx)) hv

theorem cutAt_newline (ds : List Char) (hd : ∀ c ∈ ds, 48 ≤ c.toNat ∧ c.toNat ≤ 57) :
    cutAt ['\n'] ds = none ∧ ∀ rest, cutAt ['\n'] (ds ++ '\n' :: rest) = some (ds, rest) := by
  induction ds with
  | nil =>
    refine ⟨by simp [cutAt], fun rest => ?_⟩
    simp [cutAt, List.isPrefixOf]
  | cons c cs ih =>
    have hc := hd c (List.mem_cons_self _ _)
    have hne : c ≠ '\n' := by
      intro h; rw [h] at hc; revert hc; decide
    obtain ⟨i1, i2⟩ := ih (fun x hx => hd x (List.mem_cons_of_mem _ hx))
    have hp : ∀ l, List.isPrefixOf ['\n'] (c :: l) = false := by
      intro l
      simp [List.isPrefixOf, hne.symm]
    refine ⟨?_, fun rest => ?_⟩
    · simp only [cutAt, hp, i1]; simp
    · rw [List.cons_append]
      unfold cutAt
      rw [hp, i2 rest]; simp

/-- What `readPSI` does on the inputs of C6 whose value is below `2^63`: it
returns the value of the digits between the first `total=` and the end of the
line. -/
theorem readPSI_of_digits (files : String → Option (List Char)) (path : String)
    (b before ds tail : List Char) (hfile : files path = some b)
    (hcut : Cut b "total=".toList = (before, ds ++ tail, true))
    (htail : tail = [] ∨ ∃ rest, tail = '\n' :: rest)
    (hne : ds ≠ []) (hd : ∀ c ∈ ds, 48 ≤ c.toNat ∧ c.toNat ≤ 57)
    (hv : digitsValue ds < 2 ^ 63) :
    readPSI files path = .ok ⟨digitsValue ds⟩ := by
  obtain ⟨n1, n2⟩ := cutAt_newline ds hd
  have hline : (Cut (ds ++ tail) ['\n']).1 = ds := by
    rcases htail with rfl | ⟨rest, rfl⟩
    · simp [Cut, n1]
    · simp [Cut, n2 rest]
  obtain ⟨c, cs, rfl⟩ := List.exists_cons_of_ne_nil hne
  have hc := hd c (List.mem_cons_self _ _)
  have hplus : c ≠ '+' := by intro h; rw [h] at hc; revert hc; decide
  have hminus : c ≠ '-' := by intro h; rw [h] at hc; revert hc; decide
  have hu : ParseUint (c :: cs) = (digitsValue (c :: cs), none) := by
    unfold ParseUint digitsValue
    rw [if_neg (by simp)]
    exact parseUintLoop_digits _ 0 hd (by unfold digitsValue at hv; omega)
  have hi : ParseInt (c :: cs) = ((digitsValue (c :: cs) : ℤ), none) := by
    unfold ParseInt
    simp only [hplus, hminus, or_self, if_false, hu, decide_False]
    have h63 : digitsValue (c :: cs) < 9223372036854775808 := by
      have e : (2 : Nat) ^ 63 = 9223372036854775808 := by norm_num
      omega
    simp [h63]
  unfold readPSI
  simp only [hfile, hcut, hline, hi]
  congr 2
  unfold wrapU64
  have : (0 : ℤ) ≤ digitsValue (c :: cs) := by positivity
  omega

theorem parseUintLoop_nondigit (ds : List Char) :
    ∀ n : Nat, (∃ c ∈ ds, ¬ (48 ≤ c.toNat ∧ c.toNat ≤ 57)) →
      (parseUintLoop ds n).2 ≠ none := by
  induction ds with
  | nil => intro n h; obtain ⟨c, hc, -⟩ := h; simp at hc
  | cons c cs ih =>
    intro n h
    unfold parseUintLoop
    by_cases hc : 48 ≤ c.toNat ∧ c.toNat ≤ 57
    · simp only [hc, and_self, if_true]
      split_ifs
      · simp
      · simp
      · apply ih
        obtain ⟨x, hx, hbad⟩ := h
        rcases List.mem_cons.mp hx with rfl | hx
        · exact absurd hc hbad
        · exact ⟨x, hx, hbad⟩
    · rw [if_neg hc]; simp

theorem parseUintLoop_range (ds : List Char) :
    ∀ n : Nat, (parseUintLoop ds n).2 = some .ErrRange →
      (parseUintLoop ds n).1 = 2 ^ 64 - 1 := by
  induction ds with
  | nil => intro n h; simp [parseUintLoop] at h
  | cons c cs ih =>
    intro n
    unfold parseUintLoop
    simp only
    split_ifs
    · intro _; rfl
    · intro _; rfl
    · exact ih _
    · intro h; simp at h

theorem ParseUint_error (ds : List Char)
    (h : ds = [] ∨ ∃ x ∈ ds, ¬ (48 ≤ x.toNat ∧ x.toNat ≤ 57)) :
    (ParseUint ds).2 = some .ErrSyntax ∨
      ((ParseUint ds).2 = some .ErrRange ∧ (ParseUint ds).1 = 2 ^ 64 - 1) := by
  unfold ParseUint
  split_ifs with hnil
  · left; rfl
  · rcases h with h | h
    · exact absurd h hnil
    · have h1 := parseUintLoop_nondigit ds 0 h
      have h2 := parseUintLoop_range ds 0
      rcases hp : (parseUintLoop ds 0).2 with _ | e
      · exact absurd hp h1
      · cases e with
        | ErrSyntax => left; rfl
        | ErrRange => right; exact ⟨rfl, h2 hp⟩

theorem ParseInt_error (c : Char) (rest : List Char)
    (h : (if c = '+' ∨ c = '-' then rest else c :: rest) = [] ∨
      ∃ x ∈ (if c = '+' ∨ c = '-' then rest else c :: rest),
        ¬ (48 ≤ x.toNat ∧ x.toNat ≤ 57)) :
    (ParseInt (c :: rest)).2 ≠ none := by
  have hu := ParseUint_error _ h
  unfold ParseInt
  simp only
  rcases hp : ParseUint (if c = '+' ∨ c = '-' then rest else c :: rest) with ⟨un, err⟩
  rw [hp] at hu
  simp only at hu
  rcases hu with hu | ⟨hu, hun⟩
  · subst hu; simp
  · subst hu; subst hun
    simp only
    by_cases hneg : c = '-'
    · simp [hneg]
    · simp [hneg]

/-- What `readPSI` does on the inputs of C7 that it does reject: when the text
between the first `total=` and the end of the line (empty when the field is
absent) is empty, or is empty or has a character other than a decimal digit
after one leading sign is set aside, `readPSI` returns an error. -/
theorem readPSI_rejects (files : String → Option (List Char)) (path : String)
    (b : List Char) (hfile : files path = some b)
    (hbad : (Cut (Cut b "total=".toList).2.1 ['\n']).1 = [] ∨
      ∃ c rest, (Cut (Cut b "total=".toList).2.1 ['\n']).1 = c :: rest ∧
        ((if c = '+' ∨ c = '-' then rest else c :: rest) = [] ∨
          ∃ x ∈ (if c = '+' ∨ c = '-' then rest else c :: rest),
            ¬ (48 ≤ x.toNat ∧ x.toNat ≤ 57))) :
    ∃ e, readPSI files path = .error e := by
  have key : (ParseInt (Cut (Cut b "total=".toList).2.1 ['\n']).1).2 ≠ none := by
    rcases hbad with h | ⟨c, rest, h, h2⟩
    · rw [h]; simp [ParseInt]
    · rw [h]
      exact ParseInt_error c rest h2
  unfold readPSI
  simp only [hfile]
  rcases hp : ParseInt (Cut (Cut b "total=".toList).2.1 ['\n']).1 with ⟨v, err⟩
  rw [hp] at key
  cases err with
  | none => exact absurd rfl key
  | some e =>
    cases e with
    | ErrSyntax => exact ⟨_, rfl⟩
    | ErrRange => exact ⟨_, rfl⟩

/-! ## The claims -/

/-- C1, as amended: take a warm round with a positive elapsed time `dt` and
a tracked resource `p` whose counter went from `c1` to `c2` with `c1 ≤ c2`,
the product `1000 * (c2 - c1)` fitting an `int64`.  Then `acc` is
`1000 * (c2 - c1)` nanoseconds and the rate is a finite `float64` `q ≥ 0`
that differs from `100 * (1000 * (c2 - c1)) / dt` by at most `2^-50` of it
(the roundings of the four floating-point operations).  When the loop of the
round reaches `p` (the files of the resources after `p` are readable, and for
each resource before `p` the file is readable and the `printMeter` call
returns), that rate is passed to `printMeter` and appended to the history of
`p`, whatever happens at the resources after `p`.  Nothing clamps the rate:
200000 µs of stall in 100 ms give exactly 200. -/
theorem rate_of_nondecreasing_counter (s : State) (r : RoundInput) (last : measurement)
    (pre post : List String) (p : String) (c1 c2 : Nat)
    (hwarm : s.last = some last) (hdt : 0 < timeSub r.now last.t)
    (hpaths : paths = pre ++ p :: post)
    (hprev : last.psis p = some ⟨c1⟩) (hcur : readPSI r.files p = .ok ⟨c2⟩)
    (h12 : c1 ≤ c2) (hov : 1000 * (c2 - c1) < 2 ^ 63) :
    accOf c2 c1 = 1000 * ((c2 : ℤ) - c1) ∧
    (∃ q : ℚ, pctOf (timeSub r.now last.t) c2 c1 = F64.fin q ∧ 0 ≤ q ∧
      |q - 100 * (1000 * ((c2 : ℚ) - c1)) / timeSub r.now last.t| ≤
        100 * (1000 * ((c2 : ℚ) - c1)) / timeSub r.now last.t / 2 ^ 50 ∧
      ((∀ x ∈ post, ∃ psi, readPSI r.files x = .ok psi) →
        (∀ x ∈ pre, ∃ (px cx : PSI) (v : List String × Bool), last.psis x = some px ∧
          readPSI r.files x = .ok cx ∧
          printMeter r.cvt (r.term x)
            (pctOf (timeSub r.now last.t) cx.SomeTotal px.SomeTotal) (F64.fin 100) = .ok v) →
        MeterCall.mk p (F64.fin q) (F64.fin 100) ∈ (roundStep s r).calls ∧
        (roundStep s r).state.history p = appendTrim (s.history p) ⟨r.now, F64.fin q⟩)) ∧
    pctOf 100000000 201000 1000 = F64.fin 200 := by
  refine ⟨accOf_nondecreasing c1 c2 h12 hov, ?_, by decide!⟩
  obtain ⟨q, hq, hq0, hqe⟩ :=
    pctOf_nondecreasing (timeSub r.now last.t) c1 c2 h12 hov hdt (timeSub_le _ _)
  refine ⟨q, hq, hq0, hqe, ?_⟩
  intro hpost hpre
  have hall : ∀ x ∈ paths, ∃ psi, readPSI r.files x = .ok psi := by
    intro x hx
    rw [hpaths] at hx
    rcases List.mem_append.mp hx with h | h
    · obtain ⟨px, cx, v, -, h2, -⟩ := hpre x h
      exact ⟨cx, h2⟩
    · rcases List.mem_cons.mp h with h | h
      · exact ⟨⟨c2⟩, by rw [h]; exact hcur⟩
      · exact hpost x h
  obtain ⟨psis, hg⟩ := collect_total (readPSI r.files) paths (fun _ => none) hall
  obtain ⟨g1, -⟩ := collect_ok (readPSI r.files) paths _ psis hg
  have hpsis : ∀ x ∈ paths, ∀ cx, readPSI r.files x = .ok cx → psis x = some cx := by
    intro x hx cx hcx
    obtain ⟨psi, h1, h2⟩ := g1 x hx
    rw [hcx] at h1
    injection h1 with h1
    rw [h2, h1]
  have hp : p ∈ paths := by rw [hpaths]; simp
  obtain ⟨e1, e2, -⟩ := roundStep_warm s r last psis hwarm hg
  have hnd : (pre ++ p :: post).Nodup := by rw [← hpaths]; exact paths_nodup
  obtain ⟨k1, k2⟩ := meterLoop_reach r last psis p post ⟨c2⟩ ⟨c1⟩ (hpsis p hp _ hcur) hprev
    pre s.history [] hnd
    (by
      intro x hx
      obtain ⟨px, cx, v, h1, h2, h3⟩ := hpre x hx
      have hxp : x ∈ paths := by rw [hpaths]; exact List.mem_append_left _ hx
      exact ⟨cx, px, v, hpsis x hxp cx h2, h1, h3⟩)
  simp only at k1 k2
  rw [hq] at k1 k2
  rw [e1, e2, ← hpaths] at *
  exact ⟨k1, k2 (printMeter_ok r.cvt (r.term p) q hq0)⟩

/-- Witness of C1: the scenario of the specification.  From the snapshot with
the counter of `cpu` at 1000 (and the two others at 0), the round 100 ms later
that reads 1500 (and 0, 0) passes the rate 0.5 of `cpu` to `printMeter` and
appends it, and then, the call for `cpu` having returned, passes the rate 0 of
`io`.  And in the round in which the counter of `io` falls, so that its
`printMeter` call panics, the rate 0.5 of `cpu`, which comes first, has been
passed and appended all the same. -/
theorem rate_of_nondecreasing_counter_witness :
    (MeterCall.mk "/proc/pressure/cpu" (F64.fin (1 / 2)) (F64.fin 100)
        ∈ (roundStep Scenario.warm Scenario.r2).calls ∧
      (roundStep Scenario.warm Scenario.r2).state.history "/proc/pressure/cpu" =
        [⟨100000000, F64.fin (1 / 2)⟩]) ∧
    (MeterCall.mk "/proc/pressure/io" (F64.fin 0) (F64.fin 100)
        ∈ (roundStep Scenario.warm Scenario.r2).calls ∧
      (roundStep Scenario.warm Scenario.r2).state.history "/proc/pressure/io" =
        [⟨100000000, F64.fin 0⟩]) ∧
    ((roundStep Scenario.warmAll Scenario.rIoDown).err = some (.indexOutOfRange (-6) 9) ∧
      MeterCall.mk "/proc/pressure/cpu" (F64.fin (1 / 2)) (F64.fin 100)
        ∈ (roundStep Scenario.warmAll Scenario.rIoDown).calls ∧
      (roundStep Scenario.warmAll Scenario.rIoDown).state.history "/proc/pressure/cpu" =
        [⟨100000000, F64.fin (1 / 2)⟩]) ∧
    pctOf 100000000 1500 1500 = F64.fin 0 := by
  have hhalf : pctOf (timeSub 100000000 0) ((1500 : Nat) : ℤ) ((1000 : Nat) : ℤ)
      = F64.fin (1 / 2) := by decide!
  have hzero : pctOf (timeSub 100000000 0) ((0 : Nat) : ℤ) ((0 : Nat) : ℤ)
      = F64.fin 0 := by decide!
  have readable : ∀ (fs : String → Option (List Char)) (l : List String),
      (∀ x ∈ l, (readPSI fs x).toOption.isSome = true) →
      ∀ x ∈ l, ∃ psi, readPSI fs x = .ok psi := by
    intro fs l h x hx
    have := h x hx
    cases hr : readPSI fs x with
    | error e => rw [hr] at this; simp [Except.toOption] at this
    | ok psi => exact ⟨psi, rfl⟩
  -- cpu in the round r2
  obtain ⟨-, ⟨q1, hq1, -, -, hrun1⟩, -⟩ :=
    rate_of_nondecreasing_counter Scenario.warm Scenario.r2 Scenario.snapshot1
      [] ["/proc/pressure/io", "/proc/pressure/memory"] "/proc/pressure/cpu" 1000 1500
      rfl (by decide) rfl rfl (by decide) (by decide) (by decide)
  have e1 : q1 = 1 / 2 := by
    have h : F64.fin q1 = F64.fin (1 / 2) := hq1.symm.trans hhalf
    injection h
  subst e1
  obtain ⟨a1, a2⟩ := hrun1 (readable _ _ (by decide)) (by intro x hx; simp at hx)
  -- io in the round r2, after the call for cpu
  obtain ⟨-, ⟨q2, hq2, -, -, hrun2⟩, -⟩ :=
    rate_of_nondecreasing_counter Scenario.warm Scenario.r2 Scenario.snapshot1
      ["/proc/pressure/cpu"] ["/proc/pressure/memory"] "/proc/pressure/io" 0 0
      rfl (by decide) rfl rfl (by decide) (by decide) (by decide)
  have e2 : q2 = 0 := by
    have h : F64.fin q2 = F64.fin 0 := hq2.symm.trans hzero
    injection h
  subst e2
  obtain ⟨b1, b2⟩ := hrun2 (readable _ _ (by decide))
    (by
      intro x hx
      rw [List.mem_singleton] at hx
      subst hx
      have hm : ∃ v, printMeter Scenario.r2.cvt (Scenario.r2.term "/proc/pressure/cpu")
          (pctOf (timeSub Scenario.r2.now Scenario.snapshot1.t) ((1500 : Nat) : ℤ)
            ((1000 : Nat) : ℤ)) (F64.fin 100) = .ok v := by
        rw [hq1]
        exact printMeter_ok _ _ _ (by norm_num)
      obtain ⟨v, hv⟩ := hm
      exact ⟨⟨1000⟩, ⟨1500⟩, v, rfl, by decide, hv⟩)
  -- cpu in the round in which io panics
  obtain ⟨-, ⟨q3, hq3, -, -, hrun3⟩, -⟩ :=
    rate_of_nondecreasing_counter Scenario.warmAll Scenario.rIoDown Scenario.snapshotAll
      [] ["/proc/pressure/io", "/proc/pressure/memory"] "/proc/pressure/cpu" 1000 1500
      rfl (by decide) rfl rfl (by decide) (by decide) (by decide)
  have e3 : q3 = 1 / 2 := by
    have h : F64.fin q3 = F64.fin (1 / 2) := hq3.symm.trans hhalf
    injection h
  subst e3
  obtain ⟨c1, c2⟩ := hrun3 (readable _ _ (by decide)) (by intro x hx; simp at hx)
  exact ⟨⟨a1, a2.trans (by decide!)⟩, ⟨b1, b2.trans (by decide!)⟩,
    ⟨by decide!, c1, c2.trans (by decide!)⟩, by decide!⟩

/-- Counterexample to C1 as stated: with `c1 = 0`, `c2 = 9223372036854776` and
100 ms elapsed, `c2 ≥ c1` and `dt > 0`, yet the `int64` product
`(c2 - c1) * 1000` wraps to `-9223372036854775616` and the rate is negative.
And the equality with `100 * (c2 - c1) / dt` is not exact in general: a
counter that moves by 1 µs in 3 µs gives a `float64` next to `100 / 3`. -/
theorem rate_overflow_counterexample :
    accOf 9223372036854776 0 = -9223372036854775616 ∧
      pctOf 100000000 9223372036854776 0 = F64.fin (-4722366482869645 / 512) ∧
      (¬ ∃ q : ℚ, 0 ≤ q ∧ pctOf 100000000 9223372036854776 0 = F64.fin q) ∧
      pctOf 3000 1 0 = F64.fin (2345624805922133 / 70368744177664) ∧
      pctOf 3000 1 0 ≠ F64.fin (100 * 1 / 3) := by
  have h : pctOf 100000000 9223372036854776 0 = F64.fin (-4722366482869645 / 512) := by
    decide!
  refine ⟨by decide, h, ?_, by decide!, by decide!⟩
  rintro ⟨q, hq0, hq⟩
  rw [h] at hq
  injection hq with hq
  rw [← hq] at hq0
  norm_num at hq0

theorem appendTrim_suffix (h : List TimePoint) (tp : TimePoint) :
    (appendTrim h tp = h ++ [tp] ∨ appendTrim h tp = (h ++ [tp]).drop 1) ∧
      appendTrim h tp <:+ h ++ [tp] ∧ (appendTrim h tp).getLast? = some tp := by
  unfold appendTrim
  simp only
  split_ifs with c
  · refine ⟨Or.inr rfl, List.drop_suffix _ _, ?_⟩
    cases h with
    | nil => simp [limit] at c
    | cons a t => simp
  · exact ⟨Or.inl rfl, List.suffix_refl _, by simp⟩

theorem appendTrim_of_lt (h : List TimePoint) (tp : TimePoint) (hl : h.length < limit) :
    appendTrim h tp = h ++ [tp] := by
  unfold appendTrim
  simp only [List.length_append, List.length_singleton]
  rw [if_neg (by omega)]

theorem appendTrim_of_full (a : TimePoint) (t : List TimePoint) (tp : TimePoint)
    (hl : (a :: t).length = limit) : appendTrim (a :: t) tp = t ++ [tp] := by
  unfold appendTrim
  simp only [List.length_append, List.length_singleton]
  rw [if_pos (by omega)]
  rfl

theorem foldl_appendTrim :
    ∀ (xs h : List TimePoint), h.length ≤ limit →
      xs.foldl appendTrim h = (h ++ xs).drop ((h ++ xs).length - limit) := by
  intro xs
  induction xs with
  | nil =>
    intro h hl
    have e : (h ++ []).length - limit = 0 := by
      rw [List.append_nil]; omega
    rw [e]; simp
  | cons x xs ih =>
    intro h hl
    rw [List.foldl_cons, ih _ (appendTrim_length_le h x hl)]
    rcases Nat.lt_or_ge h.length limit with hlt | hge
    · rw [appendTrim_of_lt h x hlt, List.append_assoc, List.singleton_append]
    · cases h with
      | nil => simp [limit] at hge
      | cons a t =>
        have hfull : (a :: t).length = limit := le_antisymm hl hge
        rw [appendTrim_of_full a t x hfull, List.append_assoc, List.singleton_append]
        have e1 : (t ++ x :: xs).length - limit = xs.length := by
          simp only [List.length_append, List.length_cons] at hfull ⊢
          omega
        have e2 : (a :: t ++ x :: xs).length - limit = xs.length + 1 := by
          simp only [List.length_append, List.length_cons] at hfull ⊢
          omega
        rw [e1, e2, List.cons_append, List.drop_succ_cons]

/-- C4: the history is a sliding window.  After any rounds of a run started
in the initial state every history has at most `limit = 1024` points
(whether or not the run went on to its end); one update keeps the points in
insertion order, for its result is a suffix of the old history followed by the
new point, removing at most the first point and ending with the new one; and
`limit + 1` appends starting from the empty history leave the points appended
second to last, in that order, the first one being dropped. -/
theorem history_is_sliding_window (xs : List TimePoint) (hlen : xs.length = limit + 1) :
    (∀ (rs : List RoundInput) (p : String),
      ((runRounds State.init rs).1.history p).length ≤ limit) ∧
    (∀ (h : List TimePoint) (tp : TimePoint),
      (appendTrim h tp = h ++ [tp] ∨ appendTrim h tp = (h ++ [tp]).drop 1) ∧
        appendTrim h tp <:+ h ++ [tp] ∧ (appendTrim h tp).getLast? = some tp) ∧
    xs.foldl appendTrim [] = xs.drop 1 ∧
    (xs.foldl appendTrim []).length = limit ∧
    (∀ ys : List TimePoint, ys.foldl appendTrim [] = ys.drop (ys.length - limit)) := by
  have hg : ∀ ys : List TimePoint, ys.foldl appendTrim [] = ys.drop (ys.length - limit) := by
    intro ys
    have := foldl_appendTrim ys [] (by simp)
    simpa using this
  have h1 : xs.foldl appendTrim [] = xs.drop 1 := by
    rw [hg, hlen]; simp
  refine ⟨?_, appendTrim_suffix, h1, ?_, hg⟩
  · intro rs p
    exact runRounds_length_le rs State.init (fun _ => by simp [State.init]) p
  · rw [h1, List.length_drop, hlen]; simp

/-- Witness of C4: 1025 points stamped 0 to 1024 are appended to the empty
history; 1024 points remain, the ones stamped 1 to 1024 in that order. -/
theorem history_is_sliding_window_witness :
    Scenario.points.length = limit + 1 ∧
    Scenario.points.foldl appendTrim [] = Scenario.points.drop 1 ∧
    (Scenario.points.foldl appendTrim []).length = limit :=
  have hl : Scenario.points.length = limit + 1 := by simp [Scenario.points, limit]
  have h := history_is_sliding_window Scenario.points hl
  ⟨hl, h.2.2.1, h.2.2.2.1⟩

theorem getPSIs_rFail :
    getPSIs Scenario.rFail.files = .error (.readFile "/proc/pressure/io") := by
  unfold getPSIs
  refine collect_error (readPSI Scenario.rFail.files) _ ["/proc/pressure/cpu"]
    "/proc/pressure/io" ["/proc/pressure/memory"] _ ?_ (by decide)
  intro q hq
  rw [List.mem_singleton] at hq
  subst hq
  exact ⟨⟨1700⟩, by decide⟩

/-- C5, as amended: when the read of a tracked resource fails, and every
resource before it in the order of `paths` was read, `getPSIs` returns the
error of that resource and no map; the iteration makes no `printMeter` call
and leaves the state (the stored snapshot and every history) exactly as it
was; and `run` returns that error at once, so that no later round is executed,
whatever the rounds that would have followed. -/
theorem failed_read_ends_run (s : State) (r : RoundInput) (pre post : List String)
    (p : String) (e : Error) (hpaths : paths = pre ++ p :: post)
    (hpre : ∀ q ∈ pre, ∃ psi, readPSI r.files q = .ok psi)
    (hp : readPSI r.files p = .error e) :
    getPSIs r.files = .error e ∧
    roundStep s r = { state := s, calls := [], err := some e } ∧
    (∀ rs : List RoundInput, runRounds s (r :: rs) = (s, some e)) := by
  have hg : getPSIs r.files = .error e := by
    unfold getPSIs
    rw [hpaths]
    exact collect_error (readPSI r.files) e pre p post _ hpre hp
  have hs := roundStep_read_error s r e hg
  refine ⟨hg, hs, fun rs => ?_⟩
  unfold runRounds
  rw [hs]

/-- Witness of C5: from the warm state of the scenario, the round in which the
file of `io` cannot be read (while that of `cpu`, first in order, can) ends
the run with the read error of `io` and the state unchanged. -/
theorem failed_read_ends_run_witness :
    getPSIs Scenario.rFail.files = .error (.readFile "/proc/pressure/io") ∧
    roundStep Scenario.warm Scenario.rFail =
      { state := Scenario.warm, calls := [], err := some (.readFile "/proc/pressure/io") } ∧
    runRounds Scenario.warm [Scenario.rFail, Scenario.r4] =
      (Scenario.warm, some (.readFile "/proc/pressure/io")) :=
  have h := failed_read_ends_run Scenario.warm Scenario.rFail ["/proc/pressure/cpu"]
    ["/proc/pressure/memory"] "/proc/pressure/io" (.readFile "/proc/pressure/io") rfl
    (by
      intro q hq
      rw [List.mem_singleton] at hq
      subst hq
      exact ⟨⟨1700⟩, by decide⟩)
    (by decide)
  ⟨h.1, h.2.1, h.2.2 [Scenario.r4]⟩

/-- Counterexample to C5 as stated: in the run `r1, r2, rFail, r4` the round
`r4`, which follows the failed one and whose files are readable, computes
nothing.  The run ends at `rFail` with the read error and the history of `cpu`
keeps the single point of `r2`, whereas a round `r4` taken against the
snapshot of `r2` would have appended the point `(400 ms, 0.5)`. -/
theorem following_round_counterexample :
    runRounds State.init [Scenario.r1, Scenario.r2, Scenario.rFail, Scenario.r4] =
      ((runRounds State.init [Scenario.r1, Scenario.r2]).1,
        some (.readFile "/proc/pressure/io")) ∧
    (runRounds State.init [Scenario.r1, Scenario.r2, Scenario.rFail, Scenario.r4]).1.history
        "/proc/pressure/cpu" = [⟨100000000, F64.fin (1 / 2)⟩] ∧
    (roundStep (runRounds State.init [Scenario.r1, Scenario.r2]).1 Scenario.r4).err = none ∧
    (roundStep (runRounds State.init [Scenario.r1, Scenario.r2]).1 Scenario.r4).state.history
        "/proc/pressure/cpu" =
      [⟨100000000, F64.fin (1 / 2)⟩, ⟨400000000, F64.fin (1 / 2)⟩] := by
  have hg := getPSIs_rFail
  have h12 : (runRounds State.init [Scenario.r1, Scenario.r2]).2 = none := by decide!
  have hrun : runRounds State.init [Scenario.r1, Scenario.r2, Scenario.rFail, Scenario.r4] =
      ((runRounds State.init [Scenario.r1, Scenario.r2]).1,
        some (.readFile "/proc/pressure/io")) := by
    have e1 : (roundStep State.init Scenario.r1).err = none := by decide!
    have e2 : (roundStep (roundStep State.init Scenario.r1).state Scenario.r2).err = none := by
      decide!
    simp only [runRounds, e1, e2, roundStep_read_error _ _ _ hg]
  refine ⟨hrun, ?_, by decide!, by decide!⟩
  rw [hrun]
  decide!

/-- C6, evaluation at the failing input: the first line of the file carries
`total=9223372036854775808`, nineteen decimal digits denoting `2^63`, which is
less than `2^64`; `readPSI` returns the range error of `strconv.ParseInt` and
no counter.  One less, `2^63 - 1`, is the largest value it reads. -/
theorem readPSI_rejects_two_pow_63 :
    ("9223372036854775808".toList.all Char.isDigit = true) ∧
    (9223372036854775808 : Nat) = 2 ^ 63 ∧
    readPSI (Scenario.files (some (Scenario.psiFile "9223372036854775808")) none none)
        "/proc/pressure/cpu" =
      .error (.parseRange "9223372036854775808".toList) ∧
    readPSI (Scenario.files (some (Scenario.psiFile "9223372036854775807")) none none)
        "/proc/pressure/cpu" =
      .ok ⟨9223372036854775807⟩ := by
  decide

/-- C7, evaluation at the failing input: the first line of the file carries
`total=-5`, which is not a string of decimal digits; `readPSI` returns no
error but the counter `2^64 - 5`.  The field `total=+5` is accepted as well,
while an absent field and the field `total=5x` are rejected. -/
theorem readPSI_accepts_sign :
    ("-5".toList.all Char.isDigit = false) ∧
    readPSI (Scenario.files (some (Scenario.psiFile "-5")) none none) "/proc/pressure/cpu" =
      .ok ⟨18446744073709551611⟩ ∧
    readPSI (Scenario.files (some (Scenario.psiFile "+5")) none none) "/proc/pressure/cpu" =
      .ok ⟨5⟩ ∧
    readPSI (Scenario.files (some "some avg10=0.00".toList) none none) "/proc/pressure/cpu" =
      .error (.parseSyntax []) ∧
    readPSI (Scenario.files (some (Scenario.psiFile "5x")) none none) "/proc/pressure/cpu" =
      .error (.parseSyntax "5x".toList) := by
  decide

/-- C9, evaluation at the failing input: with a width of 80 columns,
`printMeter` called with `num = -1` and `denom = 100` starts from a fill of
`trunc(640 * -0.01) = -6` eighths, and the first lookup in the glyph table
of length 9 uses the index `-6`: a run-time panic. -/
theorem printMeter_negative_index :
    termWidth Scenario.pipe = 80 ∧
    initialFill Scenario.amd64 80 (fracOf (F64.fin (-1)) (F64.fin 100)) = -6 ∧
    F64.toInt Scenario.amd64 (min (F64.ofInt (-6)) (F64.fin 8)) = -6 ∧
    printMeter Scenario.amd64 Scenario.pipe (F64.fin (-1)) (F64.fin 100) =
      .error (.indexOutOfRange (-6) 9) := by
  decide!

/-- C10, evaluation at the failing input: after the rounds `r1` and `r2`, the
round 100 ms later in which the counter of `cpu` reads 1000 instead of 1500
computes `acc = -500000` and the rate `-0.5` and passes it to `printMeter`;
that call panics on the glyph index `-3`, so the rate is never appended: the
history of `cpu` keeps the single point of `r2`. -/
theorem decreasing_counter_panics :
    wrapU64 (1000 - 1500) = 2 ^ 64 - 500 ∧
    accOf 1000 1500 = -500000 ∧
    pctOf 100000000 1000 1500 = F64.fin (-1 / 2) ∧
    (roundStep (runRounds State.init [Scenario.r1, Scenario.r2]).1 Scenario.rDown).calls =
      [⟨"/proc/pressure/cpu", F64.fin (-1 / 2), F64.fin 100⟩] ∧
    (roundStep (runRounds State.init [Scenario.r1, Scenario.r2]).1 Scenario.rDown).err =
      some (.indexOutOfRange (-3) 9) ∧
    (roundStep (runRounds State.init [Scenario.r1, Scenario.r2]).1
        Scenario.rDown).state.history "/proc/pressure/cpu" =
      [⟨100000000, F64.fin (1 / 2)⟩] := by
  decide!

end PsiMeter
